import Mathlib

/-!
Verification of the magga octilinear transit-map drawing engine.

This file gives a shallow embedding, in Lean 4, of the parts of the
repository that the claims C1..C10 are about:

* the Phase-1 try loop and Phase-2 local-search reduce of
  `Octilinearizer::draw` (src/src/octi/Octilinearizer.cpp),
* the sink opening / cost-offset bookkeeping of the per-edge routing loop,
* `Octilinearizer::getRtPair` / `getCands`,
* `Octilinearizer::getOrdering`,
* `Octilinearizer::removeEdgesShorterThan`,
* `CombOptimizer::optimizeComp` (src/src/transitmap/optim/CombOptimizer.cpp),
* `OptGraphScorer::getCrossingScore` / `getNumCrossings`
  (src/src/transitmap/optim/OptGraphScorer.cpp),
* `GLPKSolver::addCol` / `addRow` / `addColToRow` / `getVarByName`
  (src/src/shared/optim/GLPKSolver.cpp).

Machine doubles are modelled as rationals (`ℚ`), with `WithTop ℚ` where the
code manipulates `std::numeric_limits<double>::infinity()`.  External
sub-routines whose sources are not part of the repository snapshot
(Dijkstra, the grid graph, penalties) are passed in as parameters; the few
repository functions that are only declared, not defined, in the snapshot
are modelled from the specification and marked as such.
-/

namespace Magga

/-! ## C1: Phase 1 of `Octilinearizer::draw` — the try loop

`Octilinearizer::draw` (Octilinearizer.cpp, lines 215-243) runs up to
`tries = 100` attempts.  Each attempt computes an edge ordering (the initial
one on try 0, a reshuffled one afterwards) and calls the multi-edge `draw`
sub-routine, which reports whether every CombEdge was routed.  The whole
attempt is summarised here by `tryOk i : Bool` (the outcome of try `i`);
randomisation only influences that outcome.  On success the loop sets
`found` and breaks; on failure the drawing is crumbled and the loop
continues; after the loop, `if (!found) throw NoEmbeddingFoundExc();`. -/

/-- Number of Phase-1 tries, `size_t tries = 100;` in `Octilinearizer::draw`. -/
def tries : Nat := 100

/-- The Phase-1 `for (size_t i = 0; i < tries; i++)` loop.  The first
argument is the number of remaining iterations (`tries - i`), so the
recursion is structural; `i` is the index of the current try.  Returns the
index of the first successful try, or `none` when every remaining try
fails. -/
def phase1Go (tryOk : Nat → Bool) : Nat → Nat → Option Nat
  | 0, _ => none
  | rem + 1, i => if tryOk i then some i else phase1Go tryOk rem (i + 1)

/-- Phase 1 of `Octilinearizer::draw`: run the try loop from `i = 0`; if no
try succeeded, throw `NoEmbeddingFoundExc` (modelled as `Except.error ()`),
otherwise report the successful try. -/
def phase1 (tryOk : Nat → Bool) : Except Unit Nat :=
  match phase1Go tryOk tries 0 with
  | some i => Except.ok i
  | none => Except.error ()

theorem phase1Go_none (tryOk : Nat → Bool) :
    ∀ rem i, phase1Go tryOk rem i = none ↔ ∀ j, i ≤ j → j < i + rem → tryOk j = false := by
  intro rem
  induction rem with
  | zero =>
      intro i
      simp only [phase1Go]
      constructor
      · intro _ j hij hj
        omega
      · intro _
        trivial
  | succ n ih =>
      intro i
      simp only [phase1Go]
      by_cases h : tryOk i = true
      · simp only [h, if_true]
        constructor
        · intro hc
          exact absurd hc (by simp)
        · intro hall
          have := hall i (le_refl i) (by omega)
          rw [h] at this
          exact absurd this (by simp)
      · have hf : tryOk i = false := by
          cases hv : tryOk i
          · rfl
          · exact absurd hv h
        simp only [hf, Bool.false_eq_true, if_false]
        rw [ih (i + 1)]
        constructor
        · intro hall j hij hj
          rcases Nat.eq_or_lt_of_le hij with rfl | hlt
          · exact hf
          · exact hall j hlt (by omega)
        · intro hall j hij hj
          exact hall j (by omega) (by omega)

theorem phase1Go_some (tryOk : Nat → Bool) :
    ∀ rem i k, phase1Go tryOk rem i = some k →
      i ≤ k ∧ k < i + rem ∧ tryOk k = true ∧ ∀ j, i ≤ j → j < k → tryOk j = false := by
  intro rem
  induction rem with
  | zero =>
      intro i k hc
      exact absurd hc (by simp [phase1Go])
  | succ n ih =>
      intro i k hc
      simp only [phase1Go] at hc
      by_cases h : tryOk i = true
      · simp only [h, if_true] at hc
        cases hc
        refine ⟨by omega, by omega, h, ?_⟩
        intro j hij hj
        omega
      · have hf : tryOk i = false := by
          cases hv : tryOk i
          · rfl
          · exact absurd hv h
        simp only [hf, Bool.false_eq_true, if_false] at hc
        obtain ⟨h1, h2, h3, h4⟩ := ih (i + 1) k hc
        refine ⟨by omega, by omega, h3, ?_⟩
        intro j hij hj
        rcases Nat.eq_or_lt_of_le hij with rfl | hlt
        · exact hf
        · exact h4 j hlt hj

/-- C1.  The top-level draw performs at most `tries = 100` initial-embedding
tries and stops at the first try in which every CombEdge is routed:
`NoEmbeddingFoundExc` is thrown if and only if all 100 tries fail, and a
successful result reports the first successful try (individual failures
before it are not surfaced). -/
theorem c1_phase1_first_success (tryOk : Nat → Bool) :
    (phase1 tryOk = Except.error () ↔ ∀ i, i < tries → tryOk i = false) ∧
    (∀ k, phase1 tryOk = Except.ok k →
      k < tries ∧ tryOk k = true ∧ ∀ j, j < k → tryOk j = false) := by
  constructor
  · constructor
    · intro herr i hi
      unfold phase1 at herr
      cases hc : phase1Go tryOk tries 0 with
      | some v => rw [hc] at herr; exact absurd herr (by simp)
      | none =>
          have := (phase1Go_none tryOk tries 0).1 hc
          exact this i (Nat.zero_le i) (by omega)
    · intro hall
      unfold phase1
      cases hc : phase1Go tryOk tries 0 with
      | some v =>
          obtain ⟨_, h2, h3, _⟩ := phase1Go_some tryOk tries 0 v hc
          have := hall v (by omega)
          rw [h3] at this
          exact absurd this (by simp)
      | none => rfl
  · intro k hk
    unfold phase1 at hk
    cases hc : phase1Go tryOk tries 0 with
    | some v =>
        rw [hc] at hk
        have hv : v = k := by
          have : Except.ok (ε := Unit) v = Except.ok k := hk
          cases this
          rfl
        subst hv
        obtain ⟨_, h2, h3, h4⟩ := phase1Go_some tryOk tries 0 v hc
        refine ⟨by omega, h3, ?_⟩
        intro j hj
        exact h4 j (Nat.zero_le j) hj
    | none => rw [hc] at hk; exact absurd hk (by simp)

/-- Witness for C1 at a concrete try-outcome function whose first success is
try 3. -/
theorem c1_witness :
    3 < tries ∧ (fun i => decide (i = 3)) 3 = true ∧
      ∀ j, j < 3 → (fun i => decide (i = 3)) j = false :=
  (c1_phase1_first_success (fun i => decide (i = 3))).2 3 rfl

/-! ## C6: `CombOptimizer::optimizeComp` dispatch

`CombOptimizer::optimizeComp` (CombOptimizer.cpp, lines 25-47) computes
`maxC = maxCard(g)` and `solSp = solutionSpaceSize(g)` for a connected
component and dispatches: `maxC == 1` to the trivial optimizer, otherwise
`solSp < 10` to the exhaustive optimizer, otherwise to the ILP optimizer.
`maxCard` and `solutionSpaceSize` are defined outside the snapshot and are
modelled from the spec. -/

/-- A connected component of the OptGraph, summarised by the line
cardinality of each of its OptEdges. -/
structure OptComp where
  edgeCards : List Nat

/-- Modelled from the spec: `maxCardinality(component)` — the maximum number
of lines carried by any OptEdge of the component (`Optimizer::maxCard` is
only declared in the snapshot). -/
def maxCard (g : OptComp) : Nat := g.edgeCards.foldr max 0

/-- Modelled from the spec: `solutionSpaceSize(component)` — the number of
distinct ordering configurations, the product over the component's OptEdges
of the factorial of their line cardinality (`Optimizer::solutionSpaceSize`
is only declared in the snapshot). -/
def solutionSpaceSize (g : OptComp) : Nat :=
  (g.edgeCards.map Nat.factorial).foldr (fun a b => a * b) 1

/-- Which optimizer `CombOptimizer::optimizeComp` dispatches to. -/
inductive OptChoice
  | nullOpt
  | exhaustive
  | ilp
deriving DecidableEq

/-- The dispatch of `CombOptimizer::optimizeComp`: `if (maxC == 1)` use the
trivial optimizer, `else if (solSp < 10)` the exhaustive one, `else` the
ILP optimizer. -/
def optimizeComp (g : OptComp) : OptChoice :=
  if maxCard g = 1 then OptChoice.nullOpt
  else if solutionSpaceSize g < 10 then OptChoice.exhaustive
  else OptChoice.ilp

/-- C6.  For a component with at least one line (`1 ≤ maxCard`), the
dispatch picks the trivial optimizer iff the maximum cardinality is 1, the
exhaustive optimizer iff the maximum cardinality exceeds 1 and the solution
space size is below 10, and the ILP optimizer otherwise. -/
theorem c6_optimize_dispatch (g : OptComp) (h : 1 ≤ maxCard g) :
    (optimizeComp g = OptChoice.nullOpt ↔ maxCard g = 1) ∧
    (optimizeComp g = OptChoice.exhaustive ↔
      1 < maxCard g ∧ solutionSpaceSize g < 10) ∧
    (optimizeComp g = OptChoice.ilp ↔
      1 < maxCard g ∧ ¬ solutionSpaceSize g < 10) := by
  unfold optimizeComp
  by_cases h1 : maxCard g = 1
  · simp [h1]
  · have hgt : 1 < maxCard g := by omega
    by_cases h2 : solutionSpaceSize g < 10
    · simp [h1, h2, hgt]
    · simp [h1, h2, hgt]

/-- Witness for C6 on a concrete one-edge component carrying two lines
(solution space size 2), which is dispatched to the exhaustive optimizer. -/
theorem c6_witness :
    1 ≤ maxCard ⟨[2]⟩ ∧
      (optimizeComp ⟨[2]⟩ = OptChoice.exhaustive ↔
        1 < maxCard ⟨[2]⟩ ∧ solutionSpaceSize ⟨[2]⟩ < 10) :=
  ⟨by decide, (c6_optimize_dispatch ⟨[2]⟩ (by decide)).2.1⟩

/-! ## C10: `GLPKSolver` column/row bookkeeping

`GLPKSolver` (GLPKSolver.cpp).  `glp_add_cols(prob, 1)` returns the 1-based
ordinal of the added column, and `addCol` returns `col - 1`, a zero-based
index; likewise `addRow`.  `glp_find_col` returns the 1-based index of a
named column, or 0 when absent; `getVarByName` maps that to the zero-based
index, or -1 when absent.  The name-based `addColToRow` looks both names
up, logs (without aborting) when an index is negative, then executes
`assert(col); assert(row);` — which, on a C `int`, fails exactly when the
index is 0 — and finally calls the index-based overload as
`addColToRow(col, row, coef)`, whose signature is
`addColToRow(int rowId, int colId, double coef)`, so the column index is
passed as the row id and vice versa; the overload records
`_vm.addVar(rowId + 1, colId + 1, coef)`. -/

/-- State of a `GLPKSolver`: named columns and rows in creation order, and
the `VariableMatrix` triplet store. -/
structure GlpProb where
  cols : List String
  rows : List String
  vmRows : List Int
  vmCols : List Int
  vmVals : List ℚ
deriving DecidableEq

/-- The empty problem created by the `GLPKSolver` constructor. -/
def glpInit : GlpProb := ⟨[], [], [], [], []⟩

/-- `glp_find_col`: 1-based index of the named column, 0 when absent. -/
def glpFindCol (p : GlpProb) (name : String) : Int :=
  match p.cols.findIdx? (fun s => s = name) with
  | some i => (i : Int) + 1
  | none => 0

/-- `glp_find_row`: 1-based index of the named row, 0 when absent. -/
def glpFindRow (p : GlpProb) (name : String) : Int :=
  match p.rows.findIdx? (fun s => s = name) with
  | some i => (i : Int) + 1
  | none => 0

/-- `GLPKSolver::addCol`: add a column, name it, and return the zero-based
index `col - 1`. -/
def addCol (p : GlpProb) (name : String) : GlpProb × Int :=
  ({ p with cols := p.cols ++ [name] }, ((p.cols.length : Int) + 1) - 1)

/-- `GLPKSolver::addRow`: add a row, name it, and return the zero-based
index `row - 1`.  (Its own `assert(row)` sees the 1-based index, which is
always positive.) -/
def addRow (p : GlpProb) (name : String) : GlpProb × Int :=
  ({ p with rows := p.rows ++ [name] }, ((p.rows.length : Int) + 1) - 1)

/-- `GLPKSolver::getVarByName`: zero-based index of the named column, -1
when absent. -/
def getVarByName (p : GlpProb) (name : String) : Int :=
  if glpFindCol p name = 0 then -1 else glpFindCol p name - 1

/-- `GLPKSolver::getConstrByName`: zero-based index of the named row, -1
when absent. -/
def getConstrByName (p : GlpProb) (name : String) : Int :=
  if glpFindRow p name = 0 then -1 else glpFindRow p name - 1

/-- The index-based `GLPKSolver::addColToRow(int rowId, int colId, double
coef)`: records `_vm.addVar(rowId + 1, colId + 1, coef)`. -/
def addColToRowIdx (p : GlpProb) (rowId colId : Int) (coef : ℚ) : GlpProb :=
  { p with
    vmRows := p.vmRows ++ [rowId + 1]
    vmCols := p.vmCols ++ [colId + 1]
    vmVals := p.vmVals ++ [coef] }

/-- The name-based `GLPKSolver::addColToRow(rowName, colName, coef)`: look
up both zero-based indices, run `assert(col); assert(row);` (failure
modelled as `none`), then call the index-based overload as
`addColToRow(col, row, coef)` — with the column index in the `rowId`
position, exactly as the source does. -/
def addColToRowByName (p : GlpProb) (rowName colName : String) (coef : ℚ) :
    Option GlpProb :=
  let col := getVarByName p colName
  let row := getConstrByName p rowName
  if col ≠ 0 ∧ row ≠ 0 then some (addColToRowIdx p col row coef)
  else none

/-- C10 fails on the code: after creating the first column (zero-based
index 0) and the first row (zero-based index 0), the name-based
`addColToRow` hits `assert(col)` with `col = 0` and aborts instead of
recording the coefficient.  This evaluates the embedded code at that
failing input. -/
theorem c10_first_col_assert_fails :
    (addCol glpInit "c0").2 = 0 ∧
    (addRow (addCol glpInit "c0").1 "r0").2 = 0 ∧
    addColToRowByName (addRow (addCol glpInit "c0").1 "r0").1 "r0" "c0" 1 =
      none := by
  decide

/-! ## C2: the Phase-2 reduce of `Octilinearizer::draw`

Octilinearizer.cpp, lines 324-346.  After the parallel batches, the code
scans the `jobs` worker drawings with
`bestScore = inf; if (bestFrIters[i].score() < bestScore) { bestScore = ...;
bestCore = i; }` — `bestCore` starts uninitialised and is only assigned
when some worker score is below infinity.  The minimum worker drawing is
then adopted unconditionally (`drawing = bestFrIters[bestCore];`) without
any comparison against the incumbent, the improvement
`imp = prev - bestScore` is computed, and the loop breaks when
`imp < 0.05`.  Scores are `WithTop ℚ` (⊤ is the infinite score of a
default-constructed `Drawing`, see the cutoff uses at lines 303 and 405). -/

/-- The `bestCore` / `bestScore` scan over the worker drawings: fold with a
strict comparison, starting from an unassigned core and an infinite score. -/
def pickBestGo : Nat → Option Nat → WithTop ℚ → List (WithTop ℚ) →
    Option Nat × WithTop ℚ
  | _, acc, bs, [] => (acc, bs)
  | i, acc, bs, s :: rest =>
      if s < bs then pickBestGo (i + 1) (some i) s rest
      else pickBestGo (i + 1) acc bs rest

/-- The reduce scan `for (size_t i = 0; i < jobs; i++) ...` of
`Octilinearizer::draw`. -/
def pickBest (ws : List (WithTop ℚ)) : Option Nat × WithTop ℚ :=
  pickBestGo 0 none ⊤ ws

/-- One Phase-2 reduce: scan the worker scores; if `bestCore` was never
assigned the subsequent read is undefined behaviour (modelled `none`);
otherwise adopt the best worker score as the new incumbent and compute the
continuation flag — the code breaks out of the iteration loop when
`imp = prev - best < 0.05`, i.e. continues iff `¬ prev < best + 1/20`. -/
def iterReduce (prev : WithTop ℚ) (ws : List (WithTop ℚ)) :
    Option (WithTop ℚ × Bool) :=
  match pickBest ws with
  | (none, _) => none
  | (some _, s) => some (s, decide (¬ prev < s + ((1 / 20 : ℚ) : WithTop ℚ)))

/-- C2 fails on the code: with incumbent score 3 and all four workers
reporting score 5, the reduce adopts score 5 — strictly above the score
before the iteration.  (The continuation flag is `false`: the negative
improvement merely breaks the loop.) -/
theorem c2_counterexample :
    iterReduce ((3 : ℚ) : WithTop ℚ)
        [((5 : ℚ) : WithTop ℚ), ((5 : ℚ) : WithTop ℚ),
         ((5 : ℚ) : WithTop ℚ), ((5 : ℚ) : WithTop ℚ)] =
      some (((5 : ℚ) : WithTop ℚ), false) ∧
    ¬ ((5 : ℚ) : WithTop ℚ) ≤ ((3 : ℚ) : WithTop ℚ) := by
  have h1 : ((5 : ℚ) : WithTop ℚ) < ⊤ := WithTop.coe_lt_top 5
  have h2 : ¬ ((5 : ℚ) : WithTop ℚ) < ((5 : ℚ) : WithTop ℚ) := lt_irrefl _
  have h3 : ((3 : ℚ) : WithTop ℚ) <
      ((5 : ℚ) : WithTop ℚ) + ((1 / 20 : ℚ) : WithTop ℚ) := by
    rw [← WithTop.coe_add, WithTop.coe_lt_coe]
    norm_num
  have hpb : pickBest
      [((5 : ℚ) : WithTop ℚ), ((5 : ℚ) : WithTop ℚ),
       ((5 : ℚ) : WithTop ℚ), ((5 : ℚ) : WithTop ℚ)] =
      (some 0, ((5 : ℚ) : WithTop ℚ)) := by
    unfold pickBest
    simp only [pickBestGo, if_pos h1, if_neg h2]
  constructor
  · unfold iterReduce
    rw [hpb]
    show some (((5 : ℚ) : WithTop ℚ),
        decide (¬ ((3 : ℚ) : WithTop ℚ) <
          ((5 : ℚ) : WithTop ℚ) + ((1 / 20 : ℚ) : WithTop ℚ))) =
      some (((5 : ℚ) : WithTop ℚ), false)
    rw [decide_eq_false (not_not_intro h3)]
  · intro h
    exact absurd (WithTop.coe_le_coe.mp h) (by norm_num)

theorem pickBestGo_spec (l : List (WithTop ℚ)) :
    ∀ i acc bs,
      (pickBestGo i acc bs l).2 ≤ bs ∧
      (∀ x ∈ l, (pickBestGo i acc bs l).2 ≤ x) ∧
      ((pickBestGo i acc bs l).2 = bs ∨ (pickBestGo i acc bs l).2 ∈ l) ∧
      (acc.isSome → (pickBestGo i acc bs l).1.isSome) ∧
      ((∃ x ∈ l, x < bs) → (pickBestGo i acc bs l).1.isSome) := by
  induction l with
  | nil =>
      intro i acc bs
      refine ⟨le_refl bs, by simp, Or.inl rfl, fun h => h, ?_⟩
      intro h
      simp at h
  | cons s rest ih =>
      intro i acc bs
      simp only [pickBestGo]
      by_cases h : s < bs
      · simp only [h, if_true]
        obtain ⟨h1, h2, h3, h4, _⟩ := ih (i + 1) (some i) s
        refine ⟨le_trans h1 (le_of_lt h), ?_, ?_, fun _ => h4 rfl, fun _ => h4 rfl⟩
        · intro x hx
          rcases List.mem_cons.mp hx with rfl | hx
          · exact h1
          · exact h2 x hx
        · rcases h3 with h3 | h3
          · exact Or.inr (List.mem_cons.mpr (Or.inl h3))
          · exact Or.inr (List.mem_cons.mpr (Or.inr h3))
      · simp only [h, if_false]
        obtain ⟨h1, h2, h3, h4, h5⟩ := ih (i + 1) acc bs
        refine ⟨h1, ?_, ?_, h4, ?_⟩
        · intro x hx
          rcases List.mem_cons.mp hx with rfl | hx
          · exact le_trans h1 (le_of_not_lt h)
          · exact h2 x hx
        · rcases h3 with h3 | h3
          · exact Or.inl h3
          · exact Or.inr (List.mem_cons.mpr (Or.inr h3))
        · intro hex
          obtain ⟨x, hx, hxlt⟩ := hex
          rcases List.mem_cons.mp hx with rfl | hx
          · exact absurd hxlt h
          · exact h5 ⟨x, hx, hxlt⟩

/-- C2 amended.  When at least one worker produced a finite score, the
reduce is well defined and adopts the minimum worker score as the new
incumbent — unconditionally, with no comparison against the previous
incumbent; the new score is below the previous one only when some worker
achieved that, and whenever the adopted score exceeds the previous one the
continuation flag is false (the iteration loop stops). -/
theorem c2_reduce_adopts_minimum (prev : WithTop ℚ) (ws : List (WithTop ℚ))
    (h : ∃ x ∈ ws, x < ⊤) :
    ∃ s b, iterReduce prev ws = some (s, b) ∧
      (∀ x ∈ ws, s ≤ x) ∧ s ∈ ws ∧
      ((∃ x ∈ ws, x ≤ prev) → s ≤ prev) ∧
      (prev < s → b = false) := by
  obtain ⟨hle, hall, hmem, hsome, hne⟩ := pickBestGo_spec ws 0 none ⊤
  have hs : (pickBest ws).1.isSome := hne h
  unfold iterReduce
  cases hp : pickBest ws with
  | mk acc s =>
      cases acc with
      | none => rw [hp] at hs; exact absurd hs (by simp)
      | some j =>
          refine ⟨s, _, rfl, ?_, ?_, ?_, ?_⟩
          · intro x hx
            have := hall x hx
            rw [show (pickBestGo 0 none ⊤ ws).2 = s from by rw [show pickBestGo 0 none ⊤ ws = pickBest ws from rfl, hp]] at this
            exact this
          · have hmem2 := hmem
            rw [show (pickBestGo 0 none ⊤ ws).2 = s from by rw [show pickBestGo 0 none ⊤ ws = pickBest ws from rfl, hp]] at hmem2
            rcases hmem2 with h2 | h2
            · obtain ⟨x, hx, hxlt⟩ := h
              have := hall x hx
              rw [show (pickBestGo 0 none ⊤ ws).2 = s from by rw [show pickBestGo 0 none ⊤ ws = pickBest ws from rfl, hp], h2] at this
              exact absurd (lt_of_lt_of_le hxlt this).false (by simp)
            · exact h2
          · intro hex
            obtain ⟨x, hx, hxp⟩ := hex
            have := hall x hx
            rw [show (pickBestGo 0 none ⊤ ws).2 = s from by rw [show pickBestGo 0 none ⊤ ws = pickBest ws from rfl, hp]] at this
            exact le_trans this hxp
          · intro hlt
            have h20 : (0 : WithTop ℚ) ≤ ((1 / 20 : ℚ) : WithTop ℚ) := by
              have h0 : ((0 : ℚ) : WithTop ℚ) ≤ ((1 / 20 : ℚ) : WithTop ℚ) :=
                WithTop.coe_le_coe.mpr (by norm_num)
              simp only [WithTop.coe_zero] at h0
              exact h0
            have hps : prev < s + ((1 / 20 : ℚ) : WithTop ℚ) :=
              lt_of_lt_of_le hlt (le_add_of_nonneg_right h20)
            exact decide_eq_false (not_not_intro hps)

/-- Witness for C2's amended theorem: incumbent 7, workers [9, 6, 8, 6];
the reduce adopts 6 ≤ 7 and the iteration may continue. -/
theorem c2_witness :
    ∃ s b,
      iterReduce ((7 : ℚ) : WithTop ℚ)
          [((9 : ℚ) : WithTop ℚ), ((6 : ℚ) : WithTop ℚ),
           ((8 : ℚ) : WithTop ℚ), ((6 : ℚ) : WithTop ℚ)] = some (s, b) ∧
      (∀ x ∈ [((9 : ℚ) : WithTop ℚ), ((6 : ℚ) : WithTop ℚ),
              ((8 : ℚ) : WithTop ℚ), ((6 : ℚ) : WithTop ℚ)], s ≤ x) ∧
      s ∈ [((9 : ℚ) : WithTop ℚ), ((6 : ℚ) : WithTop ℚ),
           ((8 : ℚ) : WithTop ℚ), ((6 : ℚ) : WithTop ℚ)] ∧
      ((∃ x ∈ [((9 : ℚ) : WithTop ℚ), ((6 : ℚ) : WithTop ℚ),
               ((8 : ℚ) : WithTop ℚ), ((6 : ℚ) : WithTop ℚ)],
          x ≤ ((7 : ℚ) : WithTop ℚ)) → s ≤ ((7 : ℚ) : WithTop ℚ)) ∧
      (((7 : ℚ) : WithTop ℚ) < s → b = false) :=
  c2_reduce_adopts_minimum _ _
    ⟨((9 : ℚ) : WithTop ℚ), by simp, by
      exact lt_of_lt_of_le (WithTop.coe_lt_top (9 : ℚ)) (le_refl ⊤)⟩

/-! ## C3: sink opening and cost offsets in the per-edge routing loop

Octilinearizer.cpp, lines 435-520 (inside the multi-edge `draw`).  After
candidate sets have been oriented, the loop opens a sink on every source
cell: `openSinkFr(n, 0)` when `frCmbNd` is already settled, otherwise
`openSinkFr(n, (p_45 - p_135) + ndMovePen(frCmbNd, n))`, with
`costOffsetFrom = p_45 - p_135`; symmetrically for targets.  After a
successful Dijkstra run the code executes
`eL.front()->pl().setCost(eL.front()->pl().cost() - costOffsetTo);`
`eL.back()->pl().setCost(eL.back()->pl().cost() - costOffsetFrom);`
so the two offsets do not enter the accumulated score.  Dijkstra itself is
an external parameter here; a path is its list of edge costs, front =
target side. -/

/-- The two penalties entering the sink cost offset. -/
structure RoutePens where
  p45 : ℚ
  p135 : ℚ
deriving DecidableEq

/-- What the routing loop knows about one endpoint CombNode: whether the
grid has it settled, and its `ndMovePen` against each candidate cell. -/
structure EndpointCtx where
  settled : Bool
  movePen : Nat → ℚ

/-- Extra cost at one sink: 0 for a settled endpoint; otherwise
`(p_45 - p_135) + ndMovePen(cmbNd, n)`. -/
def sinkCost (pens : RoutePens) (ctx : EndpointCtx) (n : Nat) : ℚ :=
  if ctx.settled then 0 else (pens.p45 - pens.p135) + ctx.movePen n

/-- The `costOffsetFrom` / `costOffsetTo` variable: initialised to 0, set to
`p_45 - p_135` inside the loop body whenever the endpoint is unsettled —
hence it stays 0 exactly when the endpoint is settled or the candidate set
is empty. -/
def costOffset (pens : RoutePens) (ctx : EndpointCtx) (cands : List Nat) : ℚ :=
  if ctx.settled ∨ cands = [] then 0 else pens.p45 - pens.p135

/-- Open a sink on every candidate cell of one endpoint, pairing each cell
with its extra cost. -/
def openSinks (pens : RoutePens) (ctx : EndpointCtx) (cands : List Nat) :
    List (Nat × ℚ) :=
  cands.map (fun n => (n, sinkCost pens ctx n))

/-- Subtract `x` from the cost of the first edge of a path. -/
def subFront (x : ℚ) : List ℚ → List ℚ
  | [] => []
  | c :: cs => (c - x) :: cs

/-- Subtract `x` from the cost of the last edge of a path. -/
def subBack (x : ℚ) (l : List ℚ) : List ℚ :=
  (subFront x l.reverse).reverse

/-- The two `setCost` lines after a successful route: subtract
`costOffsetTo` from the front edge, then `costOffsetFrom` from the back
edge (when the path has a single edge, both hit that edge). -/
def adjustPath (offTo offFr : ℚ) (l : List ℚ) : List ℚ :=
  subBack offFr (subFront offTo l)

/-- The slice of the per-edge routing loop the claim is about (after the
orientation swap): fail when a candidate set is empty, open the sinks,
run Dijkstra, and on success strip the offsets from the returned path. -/
def routeOne (pens : RoutePens) (ctxF ctxT : EndpointCtx)
    (frC toC : List Nat)
    (dij : List (Nat × ℚ) → List (Nat × ℚ) → Option (List ℚ)) :
    Option (List ℚ) :=
  if frC = [] ∨ toC = [] then none
  else
    match dij (openSinks pens ctxF frC) (openSinks pens ctxT toC) with
    | none => none
    | some eL => some (adjustPath (costOffset pens ctxT toC)
        (costOffset pens ctxF frC) eL)

theorem subFront_sum (x : ℚ) (l : List ℚ) (h : l ≠ []) :
    (subFront x l).sum = l.sum - x := by
  cases l with
  | nil => exact absurd rfl h
  | cons c cs =>
      simp only [subFront, List.sum_cons]
      ring

theorem subBack_sum (x : ℚ) (l : List ℚ) (h : l ≠ []) :
    (subBack x l).sum = l.sum - x := by
  unfold subBack
  rw [List.sum_reverse, subFront_sum x l.reverse (by simpa using h),
    List.sum_reverse]

theorem subFront_ne_nil (x : ℚ) (l : List ℚ) (h : l ≠ []) :
    subFront x l ≠ [] := by
  cases l with
  | nil => exact absurd rfl h
  | cons c cs => simp [subFront]

/-- C3.  Every sink opened for an unsettled endpoint carries extra cost
exactly `p_45 - p_135 + ndMovePen(endpoint, cell)` and every sink for a
settled endpoint carries extra cost 0; after a successful route, the sum
of the returned path's costs is the raw sum minus the two offsets — the
offsets do not enter the accumulated score. -/
theorem c3_sink_offsets (pens : RoutePens) (ctxF ctxT : EndpointCtx)
    (frC toC : List Nat)
    (dij : List (Nat × ℚ) → List (Nat × ℚ) → Option (List ℚ)) :
    (∀ pr ∈ openSinks pens ctxF frC,
      pr.2 = if ctxF.settled then 0
        else pens.p45 - pens.p135 + ctxF.movePen pr.1) ∧
    (∀ l l2, l ≠ [] →
      dij (openSinks pens ctxF frC) (openSinks pens ctxT toC) = some l →
      routeOne pens ctxF ctxT frC toC dij = some l2 →
      l2.sum = l.sum - costOffset pens ctxT toC - costOffset pens ctxF frC) := by
  constructor
  · intro pr hpr
    unfold openSinks at hpr
    obtain ⟨n, hn, rfl⟩ := List.mem_map.mp hpr
    rfl
  · intro l l2 hne hdij hroute
    unfold routeOne at hroute
    by_cases hempty : frC = [] ∨ toC = []
    · rw [if_pos hempty] at hroute
      exact absurd hroute (by simp)
    · rw [if_neg hempty, hdij] at hroute
      have hl2 : l2 = adjustPath (costOffset pens ctxT toC)
          (costOffset pens ctxF frC) l := by
        have : some (adjustPath (costOffset pens ctxT toC)
            (costOffset pens ctxF frC) l) = some l2 := hroute
        cases this
        rfl
      subst hl2
      unfold adjustPath
      rw [subBack_sum _ _ (subFront_ne_nil _ _ hne), subFront_sum _ _ hne]

/-- Witness for C3: one unsettled source endpoint (movePen n = n), one
settled target endpoint, a two-edge path returned by the search. -/
theorem c3_witness :
    (∀ pr ∈ openSinks ⟨7, 2⟩ ⟨false, fun n => (n : ℚ)⟩ [1],
      pr.2 = if (false : Bool) then 0 else (7 : ℚ) - 2 + (pr.1 : ℚ)) ∧
    List.sum [(10 : ℚ), 15] = List.sum [(10 : ℚ), 20] - 0 - 5 := by
  have h := c3_sink_offsets ⟨7, 2⟩ ⟨false, fun n => (n : ℚ)⟩
    ⟨true, fun _ => 0⟩ [1] [2] (fun _ _ => some [(10 : ℚ), 20])
  constructor
  · exact h.1
  · have h2 := h.2 [(10 : ℚ), 20] [(10 : ℚ), 15] (by simp) rfl (by
      show routeOne ⟨7, 2⟩ ⟨false, fun n => (n : ℚ)⟩ ⟨true, fun _ => 0⟩
        [1] [2] (fun _ _ => some [(10 : ℚ), 20]) = some [(10 : ℚ), 15]
      norm_num [routeOne, adjustPath, subBack, subFront, costOffset])
    have hoffT : costOffset ⟨7, 2⟩ ⟨true, fun _ => (0 : ℚ)⟩ [2] = 0 := by
      norm_num [costOffset]
    have hoffF : costOffset ⟨7, 2⟩ ⟨false, fun n => (n : ℚ)⟩ [1] = 5 := by
      norm_num [costOffset]
    rw [hoffT, hoffF] at h2
    exact h2

/-! ## C4: `Octilinearizer::getRtPair` and `getCands`

Octilinearizer.cpp, lines 566-628.  `getCands` returns the settled cell
when the node is settled on the grid, else the pre-settled cell (if open)
when the local search pre-settled it, else `getGrNdCands(cmbNd, maxDis)` —
modelled from the spec as all unsettled cells within `maxDis` of the node's
geographic point.  `getRtPair` short-circuits when both endpoints are
settled; otherwise it runs
`while ((!frGrNds.size() || !toGrNds.size()) && i < 10)`: compute both
candidate sets, put the differences on their own sides, split the
intersection by strictly nearer geographic endpoint (ties to the `to`
side), then `maxDis += i * 2.0; i++;`. -/

/-- The grid as `getRtPair` sees it: the universe of cells, which cells are
settled or closed, and the geographic distance of each cell to the two
endpoint CombNodes. -/
structure RtEnv where
  univ : Finset Nat
  settledCell : Nat → Bool
  closedCell : Nat → Bool
  dF : Nat → ℚ
  dT : Nat → ℚ

/-- Modelled from the spec: `getGrNdCands(cmbNd, maxDis)` — all unsettled
cells within `maxDis` of the combinatorial node's geographic point
(`GridGraph::getGrNdCands` is outside the snapshot). -/
def grNdCands (env : RtEnv) (d : Nat → ℚ) (maxDis : ℚ) : Finset Nat :=
  env.univ.filter (fun c => env.settledCell c = false ∧ d c ≤ maxDis)

/-- `Octilinearizer::getCands`: the settled cell, else the open pre-settled
cell, else the radius candidates. -/
def getCands (env : RtEnv) (ggSettled preSettled : Option Nat) (d : Nat → ℚ)
    (maxDis : ℚ) : Finset Nat :=
  match ggSettled with
  | some c => {c}
  | none =>
      match preSettled with
      | some p => if env.closedCell p then ∅ else {p}
      | none => grNdCands env d maxDis

/-- The Voronoi split of the intersection: cells strictly nearer to the
`from` endpoint. -/
def voroFr (env : RtEnv) (isect : Finset Nat) : Finset Nat :=
  isect.filter (fun c => env.dF c < env.dT c)

/-- The Voronoi split of the intersection: the remaining cells (nearer to
the `to` endpoint, ties included). -/
def voroTo (env : RtEnv) (isect : Finset Nat) : Finset Nat :=
  isect.filter (fun c => ¬ env.dF c < env.dT c)

/-- One body of the `getRtPair` retry loop: compute both candidate sets,
add the set differences to their own sides and split the intersection. -/
def rtPass (env : RtEnv) (gsF psF gsT psT : Option Nat) (maxDis : ℚ)
    (fr t : Finset Nat) : Finset Nat × Finset Nat :=
  let frCands := getCands env gsF psF env.dF maxDis
  let toCands := getCands env gsT psT env.dT maxDis
  let isect := frCands ∩ toCands
  (fr ∪ (frCands \ isect) ∪ voroFr env isect,
   t ∪ (toCands \ isect) ∪ voroTo env isect)

/-- The `while ((!frGrNds.size() || !toGrNds.size()) && i < 10)` loop of
`getRtPair`.  The first argument is the remaining iteration budget
`10 - i`, so the guard `i < 10` is `fuel ≠ 0`; the returned `Nat` is the
final value of `i`. -/
def rtGo (env : RtEnv) (gsF psF gsT psT : Option Nat) :
    Nat → Nat → ℚ → Finset Nat → Finset Nat → Finset Nat × Finset Nat × Nat
  | 0, i, _, fr, t => (fr, t, i)
  | fuel + 1, i, maxDis, fr, t =>
      if fr = ∅ ∨ t = ∅ then
        let p := rtPass env gsF psF gsT psT maxDis fr t
        rtGo env gsF psF gsT psT fuel (i + 1) (maxDis + i * 2) p.1 p.2
      else (fr, t, i)

/-- `Octilinearizer::getRtPair`: the shortcut when both endpoints are
grid-settled returns the two settled cells (`getCands` with radius 0);
otherwise the retry loop runs from `i = 0` with both sides empty. -/
def getRtPair (env : RtEnv) (gsF psF gsT psT : Option Nat) (maxDis : ℚ) :
    Finset Nat × Finset Nat × Nat :=
  match gsF, gsT with
  | some a, some b => ({a}, {b}, 0)
  | some a, none => rtGo env (some a) psF none psT 10 0 maxDis ∅ ∅
  | none, some b => rtGo env none psF (some b) psT 10 0 maxDis ∅ ∅
  | none, none => rtGo env none psF none psT 10 0 maxDis ∅ ∅

/-- The invariant that makes the two sides disjoint: every cell ever put on
the `from` side is strictly nearer to the `from` endpoint, and every cell
on the `to` side is not. -/
def rtInv (env : RtEnv) (fr t : Finset Nat) : Prop :=
  (∀ c ∈ fr, env.dF c < env.dT c) ∧ (∀ c ∈ t, ¬ env.dF c < env.dT c)

theorem rtPass_inv (env : RtEnv) (maxDis : ℚ) (fr t : Finset Nat)
    (h : rtInv env fr t) :
    rtInv env (rtPass env none none none none maxDis fr t).1
      (rtPass env none none none none maxDis fr t).2 := by
  obtain ⟨hf, ht⟩ := h
  constructor
  · intro c hc
    simp only [rtPass, getCands, Finset.mem_union] at hc
    rcases hc with (hc | hc) | hc
    · exact hf c hc
    · rw [Finset.mem_sdiff, Finset.mem_inter] at hc
      obtain ⟨hcF, hcNI⟩ := hc
      have hcNT : c ∉ grNdCands env env.dT maxDis := fun hcT => hcNI ⟨hcF, hcT⟩
      rw [grNdCands, Finset.mem_filter] at hcF
      obtain ⟨_, hset, hdF⟩ := hcF
      have hdT : ¬ env.dT c ≤ maxDis := by
        intro hdT
        exact hcNT (by
          rw [grNdCands, Finset.mem_filter]
          exact ⟨by
            rw [grNdCands, Finset.mem_filter] at hcNT
            exact (by
              rcases Finset.mem_filter.mp (by
                rw [grNdCands]
                exact Finset.mem_filter.mpr ⟨by assumption, hset, hdF⟩ :
                  c ∈ grNdCands env env.dF maxDis) with ⟨hu, _⟩
              exact hu), hset, hdT⟩)
      exact lt_of_le_of_lt hdF (lt_of_not_le hdT)
    · rw [voroFr, Finset.mem_filter] at hc
      exact hc.2
  · intro c hc
    simp only [rtPass, getCands, Finset.mem_union] at hc
    rcases hc with (hc | hc) | hc
    · exact ht c hc
    · rw [Finset.mem_sdiff, Finset.mem_inter] at hc
      obtain ⟨hcT, hcNI⟩ := hc
      have hcNF : c ∉ grNdCands env env.dF maxDis := fun hcF => hcNI ⟨hcF, hcT⟩
      rw [grNdCands, Finset.mem_filter] at hcT
      obtain ⟨hu, hset, hdT⟩ := hcT
      have hdF : ¬ env.dF c ≤ maxDis := by
        intro hdF
        exact hcNF (Finset.mem_filter.mpr ⟨hu, hset, hdF⟩)
      intro hlt
      exact hdF (le_of_lt (lt_of_lt_of_le hlt hdT))
    · rw [voroTo, Finset.mem_filter] at hc
      exact hc.2

theorem rtGo_inv (env : RtEnv) :
    ∀ fuel i maxDis fr t, rtInv env fr t →
      rtInv env (rtGo env none none none none fuel i maxDis fr t).1
        (rtGo env none none none none fuel i maxDis fr t).2.1 := by
  intro fuel
  induction fuel with
  | zero => intro i maxDis fr t h; exact h
  | succ n ih =>
      intro i maxDis fr t h
      simp only [rtGo]
      by_cases hguard : fr = ∅ ∨ t = ∅
      · rw [if_pos hguard]
        exact ih (i + 1) (maxDis + i * 2) _ _ (rtPass_inv env maxDis fr t h)
      · rw [if_neg hguard]
        exact h

theorem rtGo_iters (env : RtEnv) (gsF psF gsT psT : Option Nat) :
    ∀ fuel i maxDis fr t,
      (rtGo env gsF psF gsT psT fuel i maxDis fr t).2.2 ≤ i + fuel := by
  intro fuel
  induction fuel with
  | zero => intro i maxDis fr t; exact le_refl i
  | succ n ih =>
      intro i maxDis fr t
      simp only [rtGo]
      by_cases hguard : fr = ∅ ∨ t = ∅
      · rw [if_pos hguard]
        exact le_trans (ih (i + 1) (maxDis + i * 2) _ _) (by omega)
      · rw [if_neg hguard]
        show i ≤ i + (n + 1)
        omega

/-- C4.  `getRtPair` returns disjoint candidate sets: in the shortcut for
two distinct settled cells trivially, and in the retry loop (both
endpoints unsettled, radius candidates on both sides) because every
intersection cell is assigned to exactly one side — the side whose
geographic endpoint is strictly nearer, ties to the `to` side — and a
difference cell on one side is out of the other side's radius; the retry
loop increments `i` at most 10 times. -/
theorem c4_rtpair_disjoint (env : RtEnv) (maxDis : ℚ) :
    (∀ a b : Nat, a ≠ b →
      Disjoint (getRtPair env (some a) none (some b) none maxDis).1
        (getRtPair env (some a) none (some b) none maxDis).2.1) ∧
    Disjoint (getRtPair env none none none none maxDis).1
      (getRtPair env none none none none maxDis).2.1 ∧
    (∀ gsF psF gsT psT,
      (getRtPair env gsF psF gsT psT maxDis).2.2 ≤ 10) ∧
    (∀ isect : Finset Nat, ∀ c ∈ isect,
      (c ∈ voroFr env isect ↔ env.dF c < env.dT c) ∧
      (c ∈ voroTo env isect ↔ ¬ env.dF c < env.dT c) ∧
      ¬ (c ∈ voroFr env isect ∧ c ∈ voroTo env isect)) := by
  refine ⟨?_, ?_, ?_, ?_⟩
  · intro a b hab
    simp only [getRtPair]
    rw [Finset.disjoint_singleton]
    exact hab
  · have hinv := rtGo_inv env 10 0 maxDis ∅ ∅ ⟨by simp, by simp⟩
    rw [Finset.disjoint_left]
    intro c hcF hcT
    exact hinv.2 c hcT (hinv.1 c hcF)
  · intro gsF psF gsT psT
    cases gsF with
    | some a =>
        cases gsT with
        | some b => simp [getRtPair]
        | none =>
            simp only [getRtPair]
            exact rtGo_iters env (some a) psF none psT 10 0 maxDis ∅ ∅
    | none =>
        cases gsT with
        | some b =>
            simp only [getRtPair]
            exact rtGo_iters env none psF (some b) psT 10 0 maxDis ∅ ∅
        | none =>
            simp only [getRtPair]
            exact rtGo_iters env none psF none psT 10 0 maxDis ∅ ∅
  · intro isect c hc
    refine ⟨?_, ?_, ?_⟩
    · rw [voroFr, Finset.mem_filter]
      exact ⟨fun h => h.2, fun h => ⟨hc, h⟩⟩
    · rw [voroTo, Finset.mem_filter]
      exact ⟨fun h => h.2, fun h => ⟨hc, h⟩⟩
    · intro ⟨h1, h2⟩
      rw [voroFr, Finset.mem_filter] at h1
      rw [voroTo, Finset.mem_filter] at h2
      exact h2.2 h1.2

/-- Witness for C4 on a concrete grid: cells 0,1 with cell 0 nearer the
`from` endpoint and cell 1 nearer the `to` endpoint. -/
theorem c4_witness :
    Disjoint
      (getRtPair ⟨{0, 1}, fun _ => false, fun _ => false,
        fun c => (c : ℚ), fun c => 1 - (c : ℚ)⟩ none none none none 5).1
      (getRtPair ⟨{0, 1}, fun _ => false, fun _ => false,
        fun c => (c : ℚ), fun c => 1 - (c : ℚ)⟩ none none none none 5).2.1 ∧
    (getRtPair ⟨{0, 1}, fun _ => false, fun _ => false,
      fun c => (c : ℚ), fun c => 1 - (c : ℚ)⟩ (some 3) none (some 4) none
        5).2.2 ≤ 10 :=
  ⟨(c4_rtpair_disjoint _ 5).2.1, (c4_rtpair_disjoint _ 5).2.2.1 (some 3) none (some 4) none⟩

/-! ## C8: the top-level draw on an empty LineGraph

Octilinearizer.cpp, lines 213-357.  `Drawing` is outside the snapshot; its
score is modelled from the spec and from the two call sites that pin it
down: a fresh or crumbled `Drawing` must have an infinite score, since
`drawing.score()` of the untouched drawing is the cutoff of the very first
try (line 224) and `bestFrIters[btch].score()` of a default-constructed
drawing is the cutoff of the first local-search reseat (line 303) — a
finite initial score would make every first search fail.  On an empty
LineGraph the edge ordering is empty, so try 0 routes all zero edges
without ever drawing into the `Drawing` (its score stays infinite), Phase 1
succeeds, and Phase 2 reaches the reduce with all four default worker
drawings still at infinite score: `bestCore` is never assigned, and
`bestFrIters[bestCore]` reads an uninitialised variable. -/

/-- Modelled from the spec: the score of a `Drawing`; a fresh
default-constructed drawing scores infinite (see the cutoff call sites). -/
def freshDrawingScore : WithTop ℚ := ⊤

/-- The result of the top-level draw on the empty LineGraph: Phase 1
succeeds on try 0 with the drawing untouched; Phase 2's first iteration
runs the reduce on the four default worker drawings.  `none` is the
undefined-behaviour read of the uninitialised `bestCore`. -/
def drawEmptyScore : Option (WithTop ℚ) :=
  match iterReduce freshDrawingScore
      [freshDrawingScore, freshDrawingScore, freshDrawingScore,
       freshDrawingScore] with
  | none => none
  | some (s, _) => some s

/-- C8 fails on the code: on the empty LineGraph, Phase 1 does succeed
without throwing (every try routes all zero edges, so try 0 wins), but the
Phase-2 reduce never assigns `bestCore` — all four worker drawings keep
their infinite default score — so the adopted drawing and the returned
score come from an uninitialised read, not from a zero-score drawing. -/
theorem c8_empty_graph_draw :
    phase1 (fun _ => true) = Except.ok 0 ∧ drawEmptyScore = none := by
  constructor
  · rfl
  · rfl

/-! ## C9: `Octilinearizer::removeEdgesShorterThan`

Octilinearizer.cpp, lines 34-79.  A `start:` label, a scan over all nodes
and their adjacency lists; the first edge `e1` that is contractible —
`!dontContract`, polyline length `< d`, both endpoint degrees `> 1`, and
one endpoint without stops — triggers a merge: when `e1->getTo()` has
stops, `mergeNds(from, to)`; else when `e1->getFrom()` has stops,
`mergeNds(to, from)`; else `mergeNds(to, from)`.  The merged node gets the
midpoint geometry, and `goto start;` restarts the scan.  `mergeNds` is
outside the snapshot and is modelled from the spec as merging the first
node into the second. -/

/-- An edge of the LineGraph as `removeEdgesShorterThan` inspects it. -/
structure LGEdge where
  frm : Nat
  toNd : Nat
  len : ℚ
  dontContract : Bool

/-- The slice of the LineGraph the pass needs: nodes, per-node stop counts,
per-node geometry, edges. -/
structure LG where
  nds : List Nat
  stops : Nat → Nat
  geom : Nat → ℚ × ℚ
  edges : List LGEdge

/-- The adjacency list of a node. -/
def adjOf (g : LG) (n : Nat) : List LGEdge :=
  g.edges.filter (fun e => e.frm = n ∨ e.toNd = n)

/-- Degree of a node. -/
def degOf (g : LG) (n : Nat) : Nat := (adjOf g n).length

/-- `getOtherNd`. -/
def otherNd (e : LGEdge) (n : Nat) : Nat := if e.frm = n then e.toNd else e.frm

/-- The contraction condition of the pass for edge `e` found at node `n1`:
not marked `dontContract`, shorter than `d`, both endpoint degrees above 1,
and one endpoint carries no stops. -/
def contractible (g : LG) (d : ℚ) (n1 : Nat) (e : LGEdge) : Bool :=
  !e.dontContract && decide (e.len < d) &&
    decide (1 < degOf g (otherNd e n1)) && decide (1 < degOf g n1) &&
    (decide (g.stops n1 = 0) || decide (g.stops (otherNd e n1) = 0))

/-- The scan `for (auto n1 : *g->getNds()) for (auto e1 : n1->getAdjList())`
up to the first contractible edge. -/
def findShort (g : LG) (d : ℚ) : Option (Nat × LGEdge) :=
  g.nds.findSome? (fun n1 =>
    ((adjOf g n1).find? (fun e => contractible g d n1 e)).map (fun e => (n1, e)))

/-- Modelled from the spec: `LineGraph::mergeNds(a, b)` (outside the
snapshot) merges node `a` into node `b`: `a` is deleted, edges joining `a`
and `b` are dropped, and the remaining edges of `a` are re-attached to `b`.
(The served-lines bookkeeping of the pass does not touch the graph's node
or edge structure and is not modelled.) -/
def mergeNds (g : LG) (a b : Nat) : LG :=
  { nds := g.nds.erase a
    stops := g.stops
    geom := g.geom
    edges := (g.edges.filter (fun e =>
        ¬ ((e.frm = a ∧ e.toNd = b) ∨ (e.frm = b ∧ e.toNd = a) ∨
           (e.frm = a ∧ e.toNd = a)))).map
      (fun e => { e with
        frm := if e.frm = a then b else e.frm
        toNd := if e.toNd = a then b else e.toNd }) }

/-- One merge of the pass: the branch on which endpoint carries stops picks
the merge orientation (the stop node survives), and the surviving node gets
the midpoint geometry. -/
def contractStep (g : LG) (n1 : Nat) (e1 : LGEdge) : LG :=
  let other := otherNd e1 n1
  let mid := (((g.geom n1).1 + (g.geom other).1) / 2,
              ((g.geom n1).2 + (g.geom other).2) / 2)
  let merged :=
    if 0 < g.stops e1.toNd then (mergeNds g e1.frm e1.toNd, e1.toNd)
    else if 0 < g.stops e1.frm then (mergeNds g e1.toNd e1.frm, e1.frm)
    else (mergeNds g e1.toNd e1.frm, e1.frm)
  { merged.1 with geom := fun x => if x = merged.2 then mid else g.geom x }

/-- The `goto start;` loop, with an explicit restart budget; returns the
final graph and the number of restarts taken. -/
def removeShortGo (d : ℚ) : Nat → LG → LG × Nat
  | 0, g => (g, 0)
  | fuel + 1, g =>
      match findShort g d with
      | none => (g, 0)
      | some (n1, e1) =>
          let r := removeShortGo d fuel (contractStep g n1 e1)
          (r.1, r.2 + 1)

/-- `Octilinearizer::removeEdgesShorterThan`, with the node count as the
restart budget. -/
def removeEdgesShorterThan (g : LG) (d : ℚ) : LG × Nat :=
  removeShortGo d g.nds.length g

/-- Wellformedness of the LineGraph slice: edge endpoints are nodes and no
edge is a self loop. -/
def wfLG (g : LG) : Prop :=
  ∀ e ∈ g.edges, e.frm ∈ g.nds ∧ e.toNd ∈ g.nds ∧ e.frm ≠ e.toNd

theorem findShort_mem (g : LG) (d : ℚ) (n1 : Nat) (e1 : LGEdge)
    (h : findShort g d = some (n1, e1)) : e1 ∈ g.edges := by
  unfold findShort at h
  obtain ⟨n, hn, hsome⟩ := List.exists_of_findSome?_eq_some h
  cases hfind : (adjOf g n).find? (fun e => contractible g d n e) with
  | none => rw [hfind] at hsome; exact absurd hsome (by simp)
  | some e =>
      rw [hfind] at hsome
      have hsome2 : some (n, e) = some (n1, e1) := hsome
      cases hsome2
      have := List.mem_of_find?_eq_some hfind
      unfold adjOf at this
      exact List.mem_of_mem_filter this

theorem mergeNds_card (g : LG) (a b : Nat) (ha : a ∈ g.nds) :
    (mergeNds g a b).nds.length < g.nds.length := by
  show (g.nds.erase a).length < g.nds.length
  rw [List.length_erase_of_mem ha]
  have : 0 < g.nds.length := List.length_pos.mpr (List.ne_nil_of_mem ha)
  omega

theorem mergeNds_wf (g : LG) (a b : Nat) (hg : wfLG g)
    (hb : b ∈ g.nds) (hab : a ≠ b) : wfLG (mergeNds g a b) := by
  intro e he
  unfold mergeNds at he
  simp only [List.mem_map] at he
  obtain ⟨e0, he0f, rfl⟩ := he
  rw [List.mem_filter] at he0f
  obtain ⟨he0, hnc⟩ := he0f
  obtain ⟨hf, ht, hne⟩ := hg e0 he0
  have hmemErase : ∀ x : Nat, x ∈ g.nds → x ≠ a → x ∈ g.nds.erase a := by
    intro x hx hxa
    exact (List.mem_erase_of_ne hxa).mpr hx
  have hbmem : b ∈ g.nds.erase a := hmemErase b hb (fun h => hab h.symm)
  have hdec : ¬ ((e0.frm = a ∧ e0.toNd = b) ∨ (e0.frm = b ∧ e0.toNd = a) ∨
      (e0.frm = a ∧ e0.toNd = a)) := of_decide_eq_true hnc
  refine ⟨?_, ?_, ?_⟩
  · by_cases hfa : e0.frm = a
    · simp only [hfa, if_pos rfl]
      exact hbmem
    · simp only [if_neg hfa]
      exact hmemErase e0.frm hf hfa
  · by_cases hta : e0.toNd = a
    · simp only [hta, if_pos rfl]
      exact hbmem
    · simp only [if_neg hta]
      exact hmemErase e0.toNd ht hta
  · by_cases hfa : e0.frm = a
    · by_cases hta : e0.toNd = a
      · exact absurd (hfa.trans hta.symm) hne
      · simp only [hfa, if_pos rfl, if_neg hta]
        intro hcon
        exact hdec (Or.inl ⟨hfa, hcon.symm⟩)
    · by_cases hta : e0.toNd = a
      · simp only [if_neg hfa, hta, if_pos rfl]
        intro hcon
        exact hdec (Or.inr (Or.inl ⟨hcon, hta⟩))
      · simp only [if_neg hfa, if_neg hta]
        exact hne

theorem contractStep_card (g : LG) (d : ℚ) (n1 : Nat) (e1 : LGEdge)
    (hg : wfLG g) (h : findShort g d = some (n1, e1)) :
    (contractStep g n1 e1).nds.length < g.nds.length := by
  have hmem := findShort_mem g d n1 e1 h
  obtain ⟨hf, ht, _⟩ := hg e1 hmem
  unfold contractStep
  simp only
  by_cases h1 : 0 < g.stops e1.toNd
  · simp only [if_pos h1]
    exact mergeNds_card g e1.frm e1.toNd hf
  · by_cases h2 : 0 < g.stops e1.frm
    · simp only [if_neg h1, if_pos h2]
      exact mergeNds_card g e1.toNd e1.frm ht
    · simp only [if_neg h1, if_neg h2]
      exact mergeNds_card g e1.toNd e1.frm ht

theorem contractStep_wf (g : LG) (d : ℚ) (n1 : Nat) (e1 : LGEdge)
    (hg : wfLG g) (h : findShort g d = some (n1, e1)) :
    wfLG (contractStep g n1 e1) := by
  have hmem := findShort_mem g d n1 e1 h
  obtain ⟨hf, ht, hne⟩ := hg e1 hmem
  have hwfGeom : ∀ g2 : LG, wfLG g2 → ∀ geo, wfLG { g2 with geom := geo } := by
    intro g2 hg2 geo e he
    exact hg2 e he
  unfold contractStep
  simp only
  by_cases h1 : 0 < g.stops e1.toNd
  · simp only [if_pos h1]
    exact hwfGeom _ (mergeNds_wf g e1.frm e1.toNd hg ht hne) _
  · by_cases h2 : 0 < g.stops e1.frm
    · simp only [if_neg h1, if_pos h2]
      exact hwfGeom _ (mergeNds_wf g e1.toNd e1.frm hg hf (Ne.symm hne)) _
    · simp only [if_neg h1, if_neg h2]
      exact hwfGeom _ (mergeNds_wf g e1.toNd e1.frm hg hf (Ne.symm hne)) _

theorem removeShortGo_spec (d : ℚ) :
    ∀ fuel g, wfLG g → g.nds.length ≤ fuel →
      findShort (removeShortGo d fuel g).1 d = none ∧
      (removeShortGo d fuel g).2 ≤ g.nds.length := by
  intro fuel
  induction fuel with
  | zero =>
      intro g hg hle
      have hnil : g.nds = [] := List.length_eq_zero.mp (by omega)
      constructor
      · show findShort g d = none
        unfold findShort
        rw [hnil]
        rfl
      · show 0 ≤ g.nds.length
        omega
  | succ n ih =>
      intro g hg hle
      simp only [removeShortGo]
      cases hfind : findShort g d with
      | none =>
          refine ⟨hfind, ?_⟩
          show (0 : Nat) ≤ g.nds.length
          omega
      | some pr =>
          obtain ⟨n1, e1⟩ := pr
          have hcard := contractStep_card g d n1 e1 hg hfind
          have hwf := contractStep_wf g d n1 e1 hg hfind
          obtain ⟨ih1, ih2⟩ := ih (contractStep g n1 e1) hwf (by omega)
          refine ⟨ih1, ?_⟩
          show (removeShortGo d n (contractStep g n1 e1)).2 + 1 ≤ g.nds.length
          omega

/-- C9.  On every wellformed finite LineGraph, `removeEdgesShorterThan`
terminates: each restart is preceded by a merge that strictly decreases the
node count, so a restart budget equal to the initial node count is never
exhausted — the pass ends with no contractible short edge left, after at
most as many restarts as there were nodes. -/
theorem c9_remove_short_terminates (g : LG) (d : ℚ) (hg : wfLG g) :
    findShort (removeEdgesShorterThan g d).1 d = none ∧
    (removeEdgesShorterThan g d).2 ≤ g.nds.length :=
  removeShortGo_spec d g.nds.length g hg (le_refl _)

/-- Witness for C9 on a concrete triangle with one short contractible edge:
the pass merges twice and stops, within the three-node budget. -/
theorem c9_witness :
    findShort (removeEdgesShorterThan
      ⟨[0, 1, 2], fun _ => 0, fun _ => (0, 0),
        [⟨0, 1, 1, false⟩, ⟨1, 2, 1, false⟩, ⟨2, 0, 1, false⟩]⟩ 5).1 5 =
      none ∧
    (removeEdgesShorterThan
      ⟨[0, 1, 2], fun _ => 0, fun _ => (0, 0),
        [⟨0, 1, 1, false⟩, ⟨1, 2, 1, false⟩, ⟨2, 0, 1, false⟩]⟩ 5).2 ≤
      [0, 1, 2].length :=
  c9_remove_short_terminates _ 5 (by
    intro e he
    simp only [List.mem_cons, List.not_mem_nil] at he
    rcases he with rfl | rfl | rfl | h
    · exact ⟨by simp, by simp, by norm_num⟩
    · exact ⟨by simp, by simp, by norm_num⟩
    · exact ⟨by simp, by simp, by norm_num⟩
    · exact absurd h (by simp))
/-! ## C7: `OptGraphScorer::getCrossingScore` / `getNumCrossings`

OptGraphScorer.cpp, lines 44-51 and 95-152.  `getCrossingScore(n, c)`
returns 0 when the OptNode has no underlying topological node, otherwise
`numCrossings.first * sameSegPen(n) + numCrossings.second * diffSegPen(n)`.
`getNumCrossings` iterates the node's adjacency list; for every edge `ea`
and every line pair `lp` of `ea` it first inserts `ea` into the processed
set `proced[lp]`, then scans the partner edges `eb`, skipping any `eb`
already in `proced[lp]`, and counts a same-segment crossing when
`Optimizer::crosses` holds; a second scan over partner edge pairs counts
different-segment crossings (no processed set there).  `Optimizer`'s
helpers (`getLinePairs`, `getEdgePartners`, `getEdgePartnerPairs`,
`crosses`, which fold in the configuration lookups) are outside the
snapshot and enter as parameters.  Edges and line pairs are identifiers
(`Nat`). -/

/-- The inputs of `getNumCrossings` at one OptNode: its adjacency list, the
line pairs per edge, the partner edges and partner edge pairs per (edge,
line pair), and the two crossing predicates with the ordering
configuration already folded in. -/
structure CrossEnv where
  adj : List Nat
  linePairs : Nat → List Nat
  partners : Nat → Nat → List Nat
  partnerPairs : Nat → Nat → List Nat
  crossesSame : Nat → Nat → Nat → Bool
  crossesDiff : Nat → Nat → Nat → Bool

/-- The inner loop of `getNumCrossings` over the line pairs of edge `ea`:
`proced[lp].insert(ea)`, then collect the counted same-segment triples
`(lp, ea, eb)` — partner edges not in the updated `proced[lp]` for which
the pair crosses — and the counted different-segment triples. -/
def procLps (env : CrossEnv) (ea : Nat) :
    List Nat → (Nat → Finset Nat) → List (Nat × Nat × Nat) →
    List (Nat × Nat × Nat) →
    (Nat → Finset Nat) × List (Nat × Nat × Nat) × List (Nat × Nat × Nat)
  | [], proced, same, diff => (proced, same, diff)
  | lp :: rest, proced, same, diff =>
      procLps env ea rest
        (fun l => if l = lp then insert ea (proced lp) else proced l)
        (same ++ ((env.partners ea lp).filter
          (fun eb => decide (eb ∉ insert ea (proced lp)) &&
            env.crossesSame lp ea eb)).map (fun eb => (lp, ea, eb)))
        (diff ++ ((env.partnerPairs ea lp).filter
          (fun ebc => env.crossesDiff lp ea ebc)).map (fun ebc => (lp, ea, ebc)))

/-- The outer loop of `getNumCrossings` over the adjacency list. -/
def crossNode (env : CrossEnv) :
    List Nat → (Nat → Finset Nat) → List (Nat × Nat × Nat) →
    List (Nat × Nat × Nat) →
    List (Nat × Nat × Nat) × List (Nat × Nat × Nat)
  | [], _, same, diff => (same, diff)
  | ea :: eas, proced, same, diff =>
      let r := procLps env ea (env.linePairs ea) proced same diff
      crossNode env eas r.1 r.2.1 r.2.2

/-- The same-segment crossings counted by `getNumCrossings`, as a list of
triples (line pair, first edge, second edge). -/
def sameSegList (env : CrossEnv) : List (Nat × Nat × Nat) :=
  (crossNode env env.adj (fun _ => ∅) [] []).1

/-- The different-segment crossings counted by `getNumCrossings`. -/
def diffSegList (env : CrossEnv) : List (Nat × Nat × Nat) :=
  (crossNode env env.adj (fun _ => ∅) [] []).2

/-- `OptGraphScorer::getNumCrossings`: the pair (same-segment count,
different-segment count). -/
def getNumCrossings (env : CrossEnv) : Nat × Nat :=
  ((sameSegList env).length, (diffSegList env).length)

/-- `OptGraphScorer::getCrossingScore(n, c)`: 0 when the OptNode has no
underlying topological node, else the weighted sum of the two crossing
counts. -/
def getCrossingScore (hasNode : Bool) (penSame penDiff : ℚ)
    (env : CrossEnv) : ℚ :=
  if hasNode = false then 0
  else ((getNumCrossings env).1 : ℚ) * penSame +
    ((getNumCrossings env).2 : ℚ) * penDiff

theorem procLps_proced (env : CrossEnv) (ea : Nat) :
    ∀ lps (proced : Nat → Finset Nat) same diff l,
      (procLps env ea lps proced same diff).1 l =
        if l ∈ lps then insert ea (proced l) else proced l := by
  intro lps
  induction lps with
  | nil =>
      intro proced same diff l
      simp [procLps]
  | cons lp rest ih =>
      intro proced same diff l
      simp only [procLps]
      rw [ih]
      by_cases he : l = lp
      · subst he
        by_cases hl : l ∈ rest
        · simp [hl, Finset.insert_idem]
        · simp [hl]
      · by_cases hl : l ∈ rest
        · simp [he, hl]
        · simp [he, hl]

theorem procLps_same (env : CrossEnv) (ea : Nat) :
    ∀ lps (proced : Nat → Finset Nat) same diff,
      ∃ new, (procLps env ea lps proced same diff).2.1 = same ++ new ∧
        (∀ t ∈ new, t.2.1 = ea ∧ t.1 ∈ lps ∧ t.2.2 ≠ ea ∧
          t.2.2 ∉ proced t.1 ∧ t.2.2 ∈ env.partners ea t.1) ∧
        (lps.Nodup → (∀ lp, (env.partners ea lp).Nodup) → new.Nodup) := by
  intro lps
  induction lps with
  | nil =>
      intro proced same diff
      exact ⟨[], by simp [procLps], by simp, fun _ _ => List.nodup_nil⟩
  | cons lp rest ih =>
      intro proced same diff
      obtain ⟨new2, heq, hprop, hndup⟩ := ih
        (fun l => if l = lp then insert ea (proced lp) else proced l)
        (same ++ ((env.partners ea lp).filter
          (fun eb => decide (eb ∉ insert ea (proced lp)) &&
            env.crossesSame lp ea eb)).map (fun eb => (lp, ea, eb)))
        (diff ++ ((env.partnerPairs ea lp).filter
          (fun ebc => env.crossesDiff lp ea ebc)).map (fun ebc => (lp, ea, ebc)))
      refine ⟨((env.partners ea lp).filter
          (fun eb => decide (eb ∉ insert ea (proced lp)) &&
            env.crossesSame lp ea eb)).map (fun eb => (lp, ea, eb)) ++ new2,
        ?_, ?_, ?_⟩
      · show (procLps env ea rest _ _ _).2.1 = _
        rw [heq, List.append_assoc]
      · intro t ht
        rcases List.mem_append.mp ht with ht | ht
        · obtain ⟨eb, hebf, rfl⟩ := List.mem_map.mp ht
          rw [List.mem_filter] at hebf
          obtain ⟨hebp, hcond⟩ := hebf
          rw [Bool.and_eq_true] at hcond
          have hnotin : eb ∉ insert ea (proced lp) := of_decide_eq_true hcond.1
          refine ⟨rfl, List.mem_cons.mpr (Or.inl rfl), ?_, ?_, hebp⟩
          · intro hc
            have hc2 : eb = ea := hc
            exact hnotin (by rw [hc2]; exact Finset.mem_insert_self ea _)
          · intro hc
            exact hnotin (Finset.mem_insert.mpr (Or.inr hc))
        · obtain ⟨h1, h2, h3, h4, h5⟩ := hprop t ht
          refine ⟨h1, List.mem_cons.mpr (Or.inr h2), h3, ?_, h5⟩
          intro hc
          by_cases hlp : t.1 = lp
          · rw [hlp] at h4
            exact h4 (by
              rw [if_pos rfl]
              exact Finset.mem_insert.mpr (Or.inr (by
                rw [hlp] at hc
                exact hc)))
          · exact h4 (by rw [if_neg hlp]; exact hc)
      · intro hnodup hpart
        have hres := List.nodup_cons.mp hnodup
        refine List.Nodup.append ?_ (hndup hres.2 hpart) ?_
        · refine List.Nodup.map ?_ (List.Nodup.filter _ (hpart lp))
          intro x y hxy
          exact congrArg (fun t : Nat × Nat × Nat => t.2.2) hxy
        · intro t htL htR
          obtain ⟨eb, _, rfl⟩ := List.mem_map.mp htL
          obtain ⟨_, h2, _, _, _⟩ := hprop _ htR
          have hlm : lp ∈ rest := h2
          exact hres.1 hlm

theorem crossNode_spec (env : CrossEnv)
    (hLP : ∀ ea, (env.linePairs ea).Nodup)
    (hPart : ∀ ea lp, (env.partners ea lp).Nodup) :
    ∀ eas (proced : Nat → Finset Nat) same diff, eas.Nodup →
      (∀ t ∈ same, t.2.1 ∈ proced t.1) →
      (∀ x ∈ eas, ∀ lp, x ∉ proced lp) →
      (∀ lp a b, (lp, a, b) ∈ same → (lp, b, a) ∈ same → False) →
      (∀ t ∈ same, t.2.1 ≠ t.2.2) →
      same.Nodup →
      (∀ lp a b, (lp, a, b) ∈ (crossNode env eas proced same diff).1 →
        (lp, b, a) ∈ (crossNode env eas proced same diff).1 → False) ∧
      (∀ t ∈ (crossNode env eas proced same diff).1, t.2.1 ≠ t.2.2) ∧
      (crossNode env eas proced same diff).1.Nodup := by
  intro eas
  induction eas with
  | nil =>
      intro proced same diff _ _ _ h2 h6 hnd
      exact ⟨h2, h6, hnd⟩
  | cons ea eas ih =>
      intro proced same diff hnodup h1 h5 h2 h6 hnd
      simp only [crossNode]
      have hcons := List.nodup_cons.mp hnodup
      obtain ⟨new, heq, hprop, hndnew⟩ :=
        procLps_same env ea (env.linePairs ea) proced same diff
      have hproced2 := procLps_proced env ea (env.linePairs ea) proced same diff
      refine ih (procLps env ea (env.linePairs ea) proced same diff).1
        (procLps env ea (env.linePairs ea) proced same diff).2.1
        (procLps env ea (env.linePairs ea) proced same diff).2.2
        hcons.2 ?_ ?_ ?_ ?_ ?_
      · intro t ht
        rw [heq] at ht
        rw [hproced2 t.1]
        rcases List.mem_append.mp ht with ht | ht
        · by_cases hl : t.1 ∈ env.linePairs ea
          · rw [if_pos hl]
            exact Finset.mem_insert.mpr (Or.inr (h1 t ht))
          · rw [if_neg hl]
            exact h1 t ht
        · obtain ⟨hA, hB, _, _, _⟩ := hprop t ht
          rw [if_pos hB, hA]
          exact Finset.mem_insert_self ea _
      · intro x hx lp hxl
        rw [hproced2 lp] at hxl
        by_cases hl : lp ∈ env.linePairs ea
        · rw [if_pos hl] at hxl
          rcases Finset.mem_insert.mp hxl with rfl | hxl2
          · exact hcons.1 hx
          · exact h5 x (List.mem_cons.mpr (Or.inr hx)) lp hxl2
        · rw [if_neg hl] at hxl
          exact h5 x (List.mem_cons.mpr (Or.inr hx)) lp hxl
      · intro lp a b hab hba
        rw [heq] at hab hba
        rcases List.mem_append.mp hab with hab | hab
        · rcases List.mem_append.mp hba with hba | hba
          · exact h2 lp a b hab hba
          · obtain ⟨hA, hB, hC, hD, hE⟩ := hprop _ hba
            have hD2 : a ∉ proced lp := hD
            have hIn : a ∈ proced lp := h1 _ hab
            exact hD2 hIn
        · rcases List.mem_append.mp hba with hba | hba
          · obtain ⟨hA, hB, hC, hD, hE⟩ := hprop _ hab
            have hD2 : b ∉ proced lp := hD
            have hIn : b ∈ proced lp := h1 _ hba
            exact hD2 hIn
          · obtain ⟨hA1, hB1, hC1, hD1, hE1⟩ := hprop _ hab
            obtain ⟨hA2, hB2, hC2, hD2, hE2⟩ := hprop _ hba
            have hb1 : b ≠ ea := hC1
            have hb2 : b = ea := hA2
            exact hb1 hb2
      · intro t ht
        rw [heq] at ht
        rcases List.mem_append.mp ht with ht | ht
        · exact h6 t ht
        · obtain ⟨hA, hB, hC, hD, hE⟩ := hprop t ht
          intro hc
          exact hC (hA ▸ hc ▸ rfl)
      · rw [heq]
        refine List.Nodup.append hnd (hndnew (hLP ea) (fun lp => hPart ea lp)) ?_
        intro t htold htnew
        obtain ⟨hA, hB, hC, hD, hE⟩ := hprop t htnew
        have hIn : t.2.1 ∈ proced t.1 := h1 t htold
        rw [hA] at hIn
        exact h5 ea (List.mem_cons.mpr (Or.inl rfl)) t.1 hIn

/-- C7.  `getCrossingScore` is 0 for an OptNode with no underlying
topological node and otherwise equals same-segment count times the
same-segment penalty plus different-segment count times the
different-segment penalty; and thanks to the processed set, for each line
pair every unordered pair of adjacent edges contributes at most one
same-segment crossing: the counted list has no duplicates, never pairs an
edge with itself, and never contains both orders of the same edge pair. -/
theorem c7_crossing_score (env : CrossEnv)
    (hadj : env.adj.Nodup)
    (hLP : ∀ ea, (env.linePairs ea).Nodup)
    (hPart : ∀ ea lp, (env.partners ea lp).Nodup) :
    (∀ penS penD : ℚ, getCrossingScore false penS penD env = 0) ∧
    (∀ penS penD : ℚ, getCrossingScore true penS penD env =
      ((getNumCrossings env).1 : ℚ) * penS +
        ((getNumCrossings env).2 : ℚ) * penD) ∧
    (getNumCrossings env).1 = (sameSegList env).length ∧
    (∀ lp a b, (lp, a, b) ∈ sameSegList env →
      (lp, b, a) ∈ sameSegList env → False) ∧
    (∀ lp a, (lp, a, a) ∉ sameSegList env) ∧
    (sameSegList env).Nodup := by
  obtain ⟨p1, p2, p3⟩ := crossNode_spec env hLP hPart env.adj (fun _ => ∅)
    [] [] hadj (by simp) (by simp) (by simp) (by simp) List.nodup_nil
  refine ⟨fun penS penD => rfl, fun penS penD => rfl, rfl, p1, ?_, p3⟩
  intro lp a hmem
  exact p2 (lp, a, a) hmem rfl

/-- Witness for C7 on a concrete node with two adjacent edges sharing one
line pair: exactly one same-segment crossing is counted, once. -/
theorem c7_witness :
    (getNumCrossings ⟨[1, 2], fun _ => [0],
      fun ea _ => if ea = 1 then [2] else [1], fun _ _ => [],
      fun _ _ _ => true, fun _ _ _ => true⟩).1 =
      (sameSegList ⟨[1, 2], fun _ => [0],
        fun ea _ => if ea = 1 then [2] else [1], fun _ _ => [],
        fun _ _ _ => true, fun _ _ _ => true⟩).length ∧
    (sameSegList ⟨[1, 2], fun _ => [0],
      fun ea _ => if ea = 1 then [2] else [1], fun _ _ => [],
      fun _ _ _ => true, fun _ _ _ => true⟩).Nodup := by
  have h := c7_crossing_score ⟨[1, 2], fun _ => [0],
      fun ea _ => if ea = 1 then [2] else [1], fun _ _ => [],
      fun _ _ _ => true, fun _ _ _ => true⟩ (by decide)
      (fun ea => by
        show ([0] : List Nat).Nodup
        decide)
      (fun ea lp => by by_cases hc : ea = 1 <;> simp [hc])
  exact ⟨h.2.2.1, h.2.2.2.2.2⟩

/-! ## C5: `Octilinearizer::getOrdering`

Octilinearizer.cpp, lines 527-563.  Every CombNode is pushed into a global
`NodePQ`; while it is non-empty, a seed is popped into a second `NodePQ`
`dangling`; while `dangling` is non-empty a node `n` is popped, skipped if
already settled, otherwise its clockwise edge ordering is scanned
(optionally shuffled under `randomize`): every edge not yet in `done` is
inserted into `done`, its other endpoint pushed into `dangling`, and the
edge appended to `order`; then `n` is settled.  `NodePQ` (declared in the
header, outside the snapshot) is modelled from the spec as a priority
queue keyed by degree descending with ties broken by smaller id.  The
per-node edge ordering `odA` enters as a parameter constrained to list
exactly the node's incident edges — this covers both values of the
`randomize` flag, which only permutes each list. -/

/-- The CombGraph as `getOrdering` sees it: node ids, edge ids, and the
two endpoints of every edge. -/
structure CombG where
  nds : List Nat
  edges : List Nat
  ept : Nat → Nat × Nat

/-- `getOtherNd` on the CombGraph. -/
def otherCmbNd (g : CombG) (e n : Nat) : Nat :=
  if (g.ept e).1 = n then (g.ept e).2 else (g.ept e).1

/-- Degree of a CombNode. -/
def degCmb (g : CombG) (n : Nat) : Nat :=
  (g.edges.filter (fun e => (g.ept e).1 = n ∨ (g.ept e).2 = n)).length

/-- Modelled from the spec: the `NodePQ` priority — higher degree first,
ties broken by smaller id (`NodePQ` is only declared in the snapshot). -/
def pqHigher (g : CombG) (n m : Nat) : Bool :=
  decide (degCmb g m < degCmb g n) ||
    (decide (degCmb g n = degCmb g m) && decide (n < m))

/-- The highest-priority element of `x :: xs`. -/
def pqBest (g : CombG) (x : Nat) (xs : List Nat) : Nat :=
  xs.foldl (fun acc n => if pqHigher g n acc then n else acc) x

/-- Pop the highest-priority element of a `NodePQ`. -/
def pqPop (g : CombG) (q : List Nat) : Option (Nat × List Nat) :=
  match q with
  | [] => none
  | x :: xs => some (pqBest g x xs, (x :: xs).erase (pqBest g x xs))

/-- The `for (auto ee : odSet)` loop: each edge not yet done is marked
done, its other endpoint is pushed into `dangling`, and it is appended to
`order`. -/
def procOd (g : CombG) (n : Nat) :
    List Nat → Finset Nat → List Nat → List Nat →
    Finset Nat × List Nat × List Nat
  | [], done, dangl, order => (done, dangl, order)
  | e :: es, done, dangl, order =>
      if e ∈ done then procOd g n es done dangl order
      else procOd g n es (insert e done) (dangl ++ [otherCmbNd g e n])
        (order ++ [e])

/-- The inner `while (!dangling.empty())` loop, with an explicit iteration
budget; returns the remaining `dangling` queue (empty when the budget
suffices), and the updated settled set, done set and order. -/
def innerGo (g : CombG) (odA : Nat → List Nat) :
    Nat → List Nat → Finset Nat → Finset Nat → List Nat →
    List Nat × Finset Nat × Finset Nat × List Nat
  | 0, dangl, settled, done, order => (dangl, settled, done, order)
  | fuel + 1, dangl, settled, done, order =>
      match pqPop g dangl with
      | none => ([], settled, done, order)
      | some (n, rest) =>
          if n ∈ settled then innerGo g odA fuel rest settled done order
          else
            let r := procOd g n (odA n) done rest order
            innerGo g odA fuel r.2.1 (insert n settled) r.1 r.2.2

/-- The outer `while (!globalPq.empty())` loop: pop a seed, push it into
`dangling`, and run the inner loop (whose iteration budget
`1 + edges` always suffices). -/
def outerGo (g : CombG) (odA : Nat → List Nat) :
    Nat → List Nat → Finset Nat → Finset Nat → List Nat →
    Finset Nat × Finset Nat × List Nat
  | 0, _, settled, done, order => (settled, done, order)
  | fuel + 1, q, settled, done, order =>
      match pqPop g q with
      | none => (settled, done, order)
      | some (n, rest) =>
          let r := innerGo g odA (1 + g.edges.length) [n] settled done order
          outerGo g odA fuel rest r.2.1 r.2.2.1 r.2.2.2

/-- `Octilinearizer::getOrdering`: run the outer loop over all CombNodes
and return the order of CombEdges. -/
def getOrdering (g : CombG) (odA : Nat → List Nat) : List Nat :=
  (outerGo g odA g.nds.length g.nds ∅ ∅ []).2.2

theorem pqBest_mem (g : CombG) :
    ∀ (xs : List Nat) (a : Nat), pqBest g a xs ∈ a :: xs := by
  intro xs
  induction xs with
  | nil =>
      intro a
      exact List.mem_cons.mpr (Or.inl rfl)
  | cons y ys ih =>
      intro a
      show List.foldl _ (if pqHigher g y a then y else a) ys ∈ a :: y :: ys
      by_cases h : pqHigher g y a = true
      · rw [if_pos h]
        rcases List.mem_cons.mp (ih y) with h3 | h3
        · exact List.mem_cons.mpr (Or.inr (List.mem_cons.mpr (Or.inl h3)))
        · exact List.mem_cons.mpr (Or.inr (List.mem_cons.mpr (Or.inr h3)))
      · rw [if_neg h]
        rcases List.mem_cons.mp (ih a) with h3 | h3
        · exact List.mem_cons.mpr (Or.inl h3)
        · exact List.mem_cons.mpr (Or.inr (List.mem_cons.mpr (Or.inr h3)))

theorem pqPop_none (g : CombG) (q : List Nat) :
    pqPop g q = none ↔ q = [] := by
  cases q with
  | nil => simp [pqPop]
  | cons x xs => simp [pqPop]

theorem pqPop_some (g : CombG) (q : List Nat) (n : Nat) (rest : List Nat)
    (h : pqPop g q = some (n, rest)) : n ∈ q ∧ rest = q.erase n := by
  cases q with
  | nil => exact absurd h (by simp [pqPop])
  | cons x xs =>
      simp only [pqPop] at h
      injection h with h2
      have hn : pqBest g x xs = n := congrArg Prod.fst h2
      have hr : (x :: xs).erase (pqBest g x xs) = rest := congrArg Prod.snd h2
      subst hn
      subst hr
      exact ⟨pqBest_mem g xs x, rfl⟩

theorem procOd_spec (g : CombG) (n : Nat) :
    ∀ es (done : Finset Nat) dangl order,
      (∀ e2, e2 ∈ (procOd g n es done dangl order).1 ↔
        e2 ∈ done ∨ e2 ∈ es) ∧
      (∀ x ∈ (procOd g n es done dangl order).2.1,
        x ∈ dangl ∨ ∃ e ∈ es, x = otherCmbNd g e n) ∧
      (∀ x ∈ dangl, x ∈ (procOd g n es done dangl order).2.1) ∧
      (order.Nodup → order.toFinset = done →
        (procOd g n es done dangl order).2.2.Nodup ∧
        (procOd g n es done dangl order).2.2.toFinset =
          (procOd g n es done dangl order).1) ∧
      ((∀ e ∈ es, e ∈ g.edges) →
        (procOd g n es done dangl order).2.1.length +
          (g.edges.toFinset \ (procOd g n es done dangl order).1).card ≤
        dangl.length + (g.edges.toFinset \ done).card) := by
  intro es
  induction es with
  | nil =>
      intro done dangl order
      refine ⟨by simp [procOd], by simp [procOd], by simp [procOd], ?_, ?_⟩
      · intro h1 h2
        exact ⟨h1, h2⟩
      · intro _
        exact le_refl _
  | cons e es ih =>
      intro done dangl order
      simp only [procOd]
      by_cases he : e ∈ done
      · rw [if_pos he]
        obtain ⟨ih1, ih2, ih3, ih4, ih5⟩ := ih done dangl order
        refine ⟨?_, ?_, ih3, ih4, ?_⟩
        · intro e2
          rw [ih1 e2]
          constructor
          · intro h
            rcases h with h | h
            · exact Or.inl h
            · exact Or.inr (List.mem_cons.mpr (Or.inr h))
          · intro h
            rcases h with h | h
            · exact Or.inl h
            · rcases List.mem_cons.mp h with rfl | h
              · exact Or.inl he
              · exact Or.inr h
        · intro x hx
          rcases ih2 x hx with h | ⟨e2, he2, hx2⟩
          · exact Or.inl h
          · exact Or.inr ⟨e2, List.mem_cons.mpr (Or.inr he2), hx2⟩
        · intro hsub
          exact ih5 (fun e2 he2 => hsub e2 (List.mem_cons.mpr (Or.inr he2)))
      · rw [if_neg he]
        obtain ⟨ih1, ih2, ih3, ih4, ih5⟩ :=
          ih (insert e done) (dangl ++ [otherCmbNd g e n]) (order ++ [e])
        refine ⟨?_, ?_, ?_, ?_, ?_⟩
        · intro e2
          rw [ih1 e2, Finset.mem_insert]
          constructor
          · intro h
            rcases h with (rfl | h) | h
            · exact Or.inr (List.mem_cons.mpr (Or.inl rfl))
            · exact Or.inl h
            · exact Or.inr (List.mem_cons.mpr (Or.inr h))
          · intro h
            rcases h with h | h
            · exact Or.inl (Or.inr h)
            · rcases List.mem_cons.mp h with rfl | h
              · exact Or.inl (Or.inl rfl)
              · exact Or.inr h
        · intro x hx
          rcases ih2 x hx with h | ⟨e2, he2, hx2⟩
          · rcases List.mem_append.mp h with h | h
            · exact Or.inl h
            · refine Or.inr ⟨e, List.mem_cons.mpr (Or.inl rfl), ?_⟩
              have hx3 : x = otherCmbNd g e n := by
                rcases List.mem_cons.mp h with h4 | h4
                · exact h4
                · exact absurd h4 (by simp)
              exact hx3
          · exact Or.inr ⟨e2, List.mem_cons.mpr (Or.inr he2), hx2⟩
        · intro x hx
          exact ih3 x (List.mem_append.mpr (Or.inl hx))
        · intro hord htf
          have henotin : e ∉ order := by
            intro hc
            exact he (htf ▸ List.mem_toFinset.mpr hc)
          refine ih4 ?_ ?_
          · rw [List.nodup_append]
            refine ⟨hord, List.nodup_singleton e, ?_⟩
            intro a ha hb
            rcases List.mem_cons.mp hb with rfl | hb
            · exact henotin ha
            · exact absurd hb (by simp)
          · rw [List.toFinset_append, htf]
            have hsing : ([e] : List Nat).toFinset = {e} := by simp
            rw [hsing, Finset.union_comm, ← Finset.insert_eq]
        · intro hsub
          have heE : e ∈ g.edges.toFinset :=
            List.mem_toFinset.mpr (hsub e (List.mem_cons.mpr (Or.inl rfl)))
          have heD : e ∈ g.edges.toFinset \ done :=
            Finset.mem_sdiff.mpr ⟨heE, he⟩
          have hsd : g.edges.toFinset \ insert e done =
              (g.edges.toFinset \ done).erase e := by
            ext a
            simp only [Finset.mem_sdiff, Finset.mem_erase, Finset.mem_insert]
            constructor
            · intro ⟨h1, h2⟩
              exact ⟨fun hc => h2 (Or.inl hc), h1, fun hc => h2 (Or.inr hc)⟩
            · intro ⟨h1, h2, h3⟩
              exact ⟨h2, fun hc => hc.elim h1 h3⟩
          have hle := ih5 (fun e2 he2 => hsub e2 (List.mem_cons.mpr (Or.inr he2)))
          rw [hsd] at hle
          rw [Finset.card_erase_of_mem heD] at hle
          have hpos : 0 < (g.edges.toFinset \ done).card :=
            Finset.card_pos.mpr ⟨e, heD⟩
          have hlen : (dangl ++ [otherCmbNd g e n]).length = dangl.length + 1 := by
            simp
          rw [hlen] at hle
          omega

theorem innerGo_spec (g : CombG) (odA : Nat → List Nat)
    (hE : ∀ e ∈ g.edges, (g.ept e).1 ∈ g.nds ∧ (g.ept e).2 ∈ g.nds)
    (hOd1 : ∀ n ∈ g.nds, ∀ e ∈ odA n,
      e ∈ g.edges ∧ ((g.ept e).1 = n ∨ (g.ept e).2 = n)) :
    ∀ fuel dangl (settled done : Finset Nat) order,
      dangl.length + (g.edges.toFinset \ done).card ≤ fuel →
      (∀ x ∈ dangl, x ∈ g.nds) →
      (∀ x ∈ settled, x ∈ g.nds) →
      (∀ e ∈ done, e ∈ g.edges) →
      order.Nodup → order.toFinset = done →
      (∀ m ∈ settled, ∀ e ∈ odA m, e ∈ done) →
      (innerGo g odA fuel dangl settled done order).1 = [] ∧
      (∀ x ∈ dangl, x ∈ (innerGo g odA fuel dangl settled done order).2.1) ∧
      (∀ x ∈ settled, x ∈ (innerGo g odA fuel dangl settled done order).2.1) ∧
      (∀ x ∈ (innerGo g odA fuel dangl settled done order).2.1, x ∈ g.nds) ∧
      (∀ e ∈ done, e ∈ (innerGo g odA fuel dangl settled done order).2.2.1) ∧
      (∀ e ∈ (innerGo g odA fuel dangl settled done order).2.2.1,
        e ∈ g.edges) ∧
      (innerGo g odA fuel dangl settled done order).2.2.2.Nodup ∧
      (innerGo g odA fuel dangl settled done order).2.2.2.toFinset =
        (innerGo g odA fuel dangl settled done order).2.2.1 ∧
      (∀ m ∈ (innerGo g odA fuel dangl settled done order).2.1,
        ∀ e ∈ odA m, e ∈ (innerGo g odA fuel dangl settled done order).2.2.1) := by
  intro fuel
  induction fuel with
  | zero =>
      intro dangl settled done order hfuel hdangl hsett hdone hord htf hsd
      have hnil : dangl = [] := List.length_eq_zero.mp (by omega)
      subst hnil
      exact ⟨rfl, by simp, fun x hx => hx, hsett, fun e he => he, hdone,
        hord, htf, hsd⟩
  | succ fl ih =>
      intro dangl settled done order hfuel hdangl hsett hdone hord htf hsd
      cases hpq : pqPop g dangl with
      | none =>
          have hnil : dangl = [] := (pqPop_none g dangl).mp hpq
          have hstep : innerGo g odA (fl + 1) dangl settled done order =
              ([], settled, done, order) := by
            simp only [innerGo]
            rw [hpq]
          rw [hstep]
          subst hnil
          exact ⟨rfl, by simp, fun x hx => hx, hsett, fun e he => he, hdone,
            hord, htf, hsd⟩
      | some pr =>
          obtain ⟨n, rest⟩ := pr
          obtain ⟨hnmem, hrest⟩ := pqPop_some g dangl n rest hpq
          have hrestlen : rest.length + 1 = dangl.length := by
            rw [hrest, List.length_erase_of_mem hnmem]
            have : 0 < dangl.length :=
              List.length_pos.mpr (List.ne_nil_of_mem hnmem)
            omega
          have hrestsub : ∀ x ∈ rest, x ∈ dangl := by
            intro x hx
            rw [hrest] at hx
            exact List.mem_of_mem_erase hx
          have hdanglsplit : ∀ x ∈ dangl, x = n ∨ x ∈ rest := by
            intro x hx
            by_cases hxn : x = n
            · exact Or.inl hxn
            · refine Or.inr ?_
              rw [hrest]
              exact (List.mem_erase_of_ne hxn).mpr hx
          by_cases hn : n ∈ settled
          · have hstep : innerGo g odA (fl + 1) dangl settled done order =
                innerGo g odA fl rest settled done order := by
              simp only [innerGo]
              rw [hpq]
              simp only [if_pos hn]
            rw [hstep]
            obtain ⟨c1, c2, c3, c4, c5, c6, c7, c8, c9⟩ := ih rest settled
              done order (by omega) (fun x hx => hdangl x (hrestsub x hx))
              hsett hdone hord htf hsd
            refine ⟨c1, ?_, c3, c4, c5, c6, c7, c8, c9⟩
            intro x hx
            rcases hdanglsplit x hx with rfl | hx2
            · exact c3 x hn
            · exact c2 x hx2
          · have hstep : innerGo g odA (fl + 1) dangl settled done order =
                innerGo g odA fl (procOd g n (odA n) done rest order).2.1
                  (insert n settled) (procOd g n (odA n) done rest order).1
                  (procOd g n (odA n) done rest order).2.2 := by
              simp only [innerGo]
              rw [hpq]
              simp only [if_neg hn]
            rw [hstep]
            have hnnds : n ∈ g.nds := hdangl n hnmem
            obtain ⟨p1, p2, p3, p4, p5⟩ := procOd_spec g n (odA n) done rest order
            have hodsub : ∀ e ∈ odA n, e ∈ g.edges :=
              fun e he => (hOd1 n hnnds e he).1
            obtain ⟨q1, q2⟩ := p4 hord htf
            have hdone2 : ∀ e ∈ (procOd g n (odA n) done rest order).1,
                e ∈ g.edges := by
              intro e he
              rcases (p1 e).mp he with h | h
              · exact hdone e h
              · exact hodsub e h
            have hdangl2 : ∀ x ∈ (procOd g n (odA n) done rest order).2.1,
                x ∈ g.nds := by
              intro x hx
              rcases p2 x hx with h | ⟨e, he, rfl⟩
              · exact hdangl x (hrestsub x h)
              · have hee := (hOd1 n hnnds e he).1
                obtain ⟨h1, h2⟩ := hE e hee
                unfold otherCmbNd
                by_cases hc : (g.ept e).1 = n
                · rw [if_pos hc]
                  exact h2
                · rw [if_neg hc]
                  exact h1
            have hsett2 : ∀ x ∈ insert n settled, x ∈ g.nds := by
              intro x hx
              rcases Finset.mem_insert.mp hx with rfl | hx2
              · exact hnnds
              · exact hsett x hx2
            have hsd2 : ∀ m ∈ insert n settled, ∀ e ∈ odA m,
                e ∈ (procOd g n (odA n) done rest order).1 := by
              intro m hm e he
              rcases Finset.mem_insert.mp hm with rfl | hm2
              · exact (p1 e).mpr (Or.inr he)
              · exact (p1 e).mpr (Or.inl (hsd m hm2 e he))
            obtain ⟨c1, c2, c3, c4, c5, c6, c7, c8, c9⟩ := ih
              (procOd g n (odA n) done rest order).2.1 (insert n settled)
              (procOd g n (odA n) done rest order).1
              (procOd g n (odA n) done rest order).2.2
              (by
                have hmu := p5 hodsub
                omega)
              hdangl2 hsett2 hdone2 q1 q2 hsd2
            refine ⟨c1, ?_, ?_, c4, ?_, c6, c7, c8, c9⟩
            · intro x hx
              rcases hdanglsplit x hx with rfl | hx2
              · exact c3 x (Finset.mem_insert_self x settled)
              · exact c2 x (p3 x hx2)
            · intro x hx
              exact c3 x (Finset.mem_insert.mpr (Or.inr hx))
            · intro e he
              exact c5 e ((p1 e).mpr (Or.inl he))

theorem outerGo_spec (g : CombG) (odA : Nat → List Nat)
    (hE : ∀ e ∈ g.edges, (g.ept e).1 ∈ g.nds ∧ (g.ept e).2 ∈ g.nds)
    (hOd1 : ∀ n ∈ g.nds, ∀ e ∈ odA n,
      e ∈ g.edges ∧ ((g.ept e).1 = n ∨ (g.ept e).2 = n)) :
    ∀ fuel q (settled done : Finset Nat) order,
      q.length ≤ fuel →
      (∀ x ∈ q, x ∈ g.nds) →
      (∀ x ∈ settled, x ∈ g.nds) →
      (∀ e ∈ done, e ∈ g.edges) →
      order.Nodup → order.toFinset = done →
      (∀ m ∈ settled, ∀ e ∈ odA m, e ∈ done) →
      (∀ x ∈ q, x ∈ (outerGo g odA fuel q settled done order).1) ∧
      (∀ x ∈ settled, x ∈ (outerGo g odA fuel q settled done order).1) ∧
      (∀ e ∈ (outerGo g odA fuel q settled done order).2.1, e ∈ g.edges) ∧
      (outerGo g odA fuel q settled done order).2.2.Nodup ∧
      (outerGo g odA fuel q settled done order).2.2.toFinset =
        (outerGo g odA fuel q settled done order).2.1 ∧
      (∀ m ∈ (outerGo g odA fuel q settled done order).1,
        ∀ e ∈ odA m, e ∈ (outerGo g odA fuel q settled done order).2.1) := by
  intro fuel
  induction fuel with
  | zero =>
      intro q settled done order hfuel hq hsett hdone hord htf hsd
      have hnil : q = [] := List.length_eq_zero.mp (by omega)
      subst hnil
      exact ⟨by simp, fun x hx => hx, hdone, hord, htf, hsd⟩
  | succ fl ih =>
      intro q settled done order hfuel hq hsett hdone hord htf hsd
      cases hpq : pqPop g q with
      | none =>
          have hnil : q = [] := (pqPop_none g q).mp hpq
          have hstep : outerGo g odA (fl + 1) q settled done order =
              (settled, done, order) := by
            simp only [outerGo]
            rw [hpq]
          rw [hstep]
          subst hnil
          exact ⟨by simp, fun x hx => hx, hdone, hord, htf, hsd⟩
      | some pr =>
          obtain ⟨n, rest⟩ := pr
          obtain ⟨hnmem, hrest⟩ := pqPop_some g q n rest hpq
          have hstep : outerGo g odA (fl + 1) q settled done order =
              outerGo g odA fl rest
                (innerGo g odA (1 + g.edges.length) [n] settled done order).2.1
                (innerGo g odA (1 + g.edges.length) [n] settled done
                  order).2.2.1
                (innerGo g odA (1 + g.edges.length) [n] settled done
                  order).2.2.2 := by
            simp only [outerGo]
            rw [hpq]
          rw [hstep]
          have hrestlen : rest.length + 1 = q.length := by
            rw [hrest, List.length_erase_of_mem hnmem]
            have : 0 < q.length := List.length_pos.mpr (List.ne_nil_of_mem hnmem)
            omega
          have hrestsub : ∀ x ∈ rest, x ∈ q := by
            intro x hx
            rw [hrest] at hx
            exact List.mem_of_mem_erase hx
          have hmu : [n].length + (g.edges.toFinset \ done).card ≤
              1 + g.edges.length := by
            have h1 : (g.edges.toFinset \ done).card ≤ g.edges.toFinset.card :=
              Finset.card_le_card (Finset.sdiff_subset)
            have h2 : g.edges.toFinset.card ≤ g.edges.length :=
              g.edges.toFinset_card_le
            simp only [List.length_singleton]
            omega
          obtain ⟨i1, i2, i3, i4, i5, i6, i7, i8, i9⟩ := innerGo_spec g odA hE
            hOd1 (1 + g.edges.length) [n] settled done order hmu
            (by
              intro x hx
              rcases List.mem_cons.mp hx with h | hx2
              · rw [h]
                exact hq n hnmem
              · exact absurd hx2 (by simp))
            hsett hdone hord htf hsd
          obtain ⟨c1, c2, c3, c4, c5, c6⟩ := ih rest
            (innerGo g odA (1 + g.edges.length) [n] settled done order).2.1
            (innerGo g odA (1 + g.edges.length) [n] settled done order).2.2.1
            (innerGo g odA (1 + g.edges.length) [n] settled done order).2.2.2
            (by omega) (fun x hx => hq x (hrestsub x hx)) i4 i6 i7 i8 i9
          refine ⟨?_, ?_, c3, c4, c5, c6⟩
          · intro x hx
            by_cases hxn : x = n
            · subst hxn
              exact c2 x (i2 x (List.mem_cons.mpr (Or.inl rfl)))
            · have hx2 : x ∈ rest := by
                rw [hrest]
                exact (List.mem_erase_of_ne hxn).mpr hx
              exact c1 x hx2
          · intro x hx
            exact c2 x (i3 x hx)

/-- C5.  For every CombGraph whose per-node edge orderings list exactly the
node's incident edges — as the clockwise orderings do, shuffled or not —
`getOrdering` returns a sequence that contains every CombEdge exactly
once: it has no duplicates, and an edge appears in it iff it is an edge of
the graph. -/
theorem c5_ordering_total (g : CombG) (odA : Nat → List Nat)
    (hE : ∀ e ∈ g.edges, (g.ept e).1 ∈ g.nds ∧ (g.ept e).2 ∈ g.nds)
    (hOd1 : ∀ n ∈ g.nds, ∀ e ∈ odA n,
      e ∈ g.edges ∧ ((g.ept e).1 = n ∨ (g.ept e).2 = n))
    (hOd2 : ∀ n ∈ g.nds, ∀ e ∈ g.edges,
      ((g.ept e).1 = n ∨ (g.ept e).2 = n) → e ∈ odA n) :
    (getOrdering g odA).Nodup ∧
    ∀ e, e ∈ getOrdering g odA ↔ e ∈ g.edges := by
  obtain ⟨c1, c2, c3, c4, c5, c6⟩ := outerGo_spec g odA hE hOd1 g.nds.length
    g.nds ∅ ∅ [] (le_refl _) (fun x hx => hx) (by simp) (by simp)
    List.nodup_nil (by simp) (by simp)
  refine ⟨c4, ?_⟩
  intro e
  constructor
  · intro he
    exact c3 e (c5 ▸ List.mem_toFinset.mpr he)
  · intro he
    have hn : (g.ept e).1 ∈ g.nds := (hE e he).1
    have hsettled := c1 (g.ept e).1 hn
    have hod : e ∈ odA (g.ept e).1 := hOd2 (g.ept e).1 hn e he (Or.inl rfl)
    have hdone := c6 (g.ept e).1 hsettled e hod
    rw [← c5] at hdone
    exact List.mem_toFinset.mp hdone

/-- Witness for C5 on a concrete two-node, one-edge CombGraph. -/
theorem c5_witness :
    (getOrdering ⟨[0, 1], [5], fun _ => (0, 1)⟩ (fun _ => [5])).Nodup ∧
    (5 ∈ getOrdering ⟨[0, 1], [5], fun _ => (0, 1)⟩ (fun _ => [5]) ↔
      5 ∈ [5]) := by
  have h := c5_ordering_total ⟨[0, 1], [5], fun _ => (0, 1)⟩ (fun _ => [5])
    (by decide) (by decide) (by decide)
  exact ⟨h.1, h.2 5⟩
end Magga
